import Mathlib

/-!
# Verification of the PromptViz Mermaid round-trip engine

Shallow embedding of the flowchart parsing / serialization / sanitization /
layout code of the PromptViz repository
(`frontend/src/utils/mermaidToReactFlow.ts`, `frontend/src/types/api.ts`,
`frontend/src/components/DiagramCanvas.tsx`), together with proofs and
refutations of the specification's claims about it.

The source code drives all behaviour through JavaScript regular expressions.
We embed a small backtracking regular-expression engine whose semantics
mirror the JavaScript engine on the constructs actually used by the source
(literals, single-character classes, greedy and lazy quantifiers over
single-character classes, alternation, greedy optional groups, capture
groups, and end anchors).  All quantifiers in the source patterns range over
single-character classes, so matching terminates structurally.
-/

namespace PromptViz

/-- The left brace character, written via its code point. -/
def lbr : Char := Char.ofNat 123

/-- The right brace character, written via its code point. -/
def rbr : Char := Char.ofNat 125

/-- The backtick character, written via its code point. -/
def btick : Char := Char.ofNat 96

/-- JavaScript `\w` character class: `[A-Za-z0-9_]`. -/
def wordC (c : Char) : Bool :=
  ('a' ≤ c && c ≤ 'z') || ('A' ≤ c && c ≤ 'Z') || ('0' ≤ c && c ≤ '9') || c = '_'

/-- JavaScript `.` (no `s` flag): any character except line terminators. -/
def jsDot (c : Char) : Bool :=
  !(c = '\n' || c = '\r' || c.toNat = 0x2028 || c.toNat = 0x2029)

/-- JavaScript `\s` character class (whitespace and line terminators). -/
def jsSpace (c : Char) : Bool :=
  c = ' ' || c = '\t' || c = '\n' || c = '\r' || c.toNat = 11 || c.toNat = 12 ||
  c.toNat = 160 || c.toNat = 0x1680 || (0x2000 ≤ c.toNat && c.toNat ≤ 0x200A) ||
  c.toNat = 0x2028 || c.toNat = 0x2029 || c.toNat = 0x202F || c.toNat = 0x205F ||
  c.toNat = 0x3000 || c.toNat = 0xFEFF

/-- The character class `[ \t]` used by the sanitizer's whitespace collapsing. -/
def spTab (c : Char) : Bool := c = ' ' || c = '\t'

/-- JavaScript `[A-Z]`. -/
def upperC (c : Char) : Bool := 'A' ≤ c && c ≤ 'Z'

/-- Regular-expression abstract syntax, restricted to the constructs used by
the source.  Quantifiers only range over single-character classes. -/
inductive RE where
  /-- empty pattern -/
  | eps : RE
  /-- a literal character -/
  | lit (c : Char) : RE
  /-- a single-character class -/
  | cls (p : Char → Bool) : RE
  /-- concatenation -/
  | seq (a b : RE) : RE
  /-- ordered alternation (left preferred, as in JavaScript) -/
  | alt (a b : RE) : RE
  /-- greedy optional group `(?:a)?` -/
  | opt (a : RE) : RE
  /-- greedy star over a class, `p*` -/
  | starG (p : Char → Bool) : RE
  /-- lazy star over a class, `p*?` -/
  | starL (p : Char → Bool) : RE
  /-- `$` end-of-input anchor (no `m` flag) -/
  | endS : RE
  /-- `$` with the `m` flag: end of input or before a newline -/
  | endM : RE
  /-- numbered capture group -/
  | grp (n : Nat) (a : RE) : RE

/-- Capture environment: group number to captured characters; the most
recent write for a group shadows earlier ones. -/
def Caps := List (Nat × List Char)

/-- Read a capture group (JavaScript yields the last value written). -/
def getCap (n : Nat) (caps : Caps) : List Char :=
  match List.find? (fun p => p.1 = n) caps with
  | some p => p.2
  | none => []

/-- Record a capture group value. -/
def setCap (n : Nat) (v : List Char) (caps : Caps) : Caps := (n, v) :: caps

/-- Lazy left-biased choice on `Option`, so that backtracking only explores
the second branch when the first fails. -/
def mfirst (x : Option α) (y : Unit → Option α) : Option α :=
  match x with
  | some r => some r
  | none => y ()

/-- Greedy class star: consume as many `p`-characters as possible, then
backtrack towards shorter matches. -/
def sG {α : Type} (p : Char → Bool) : List Char → Caps →
    (List Char → Caps → Option α) → Option α
  | [], caps, k => k [] caps
  | c :: t, caps, k =>
    if p c then mfirst (sG p t caps k) (fun _ => k (c :: t) caps)
    else k (c :: t) caps

/-- Lazy class star: consume as few `p`-characters as possible, extending
only when the continuation fails. -/
def sL {α : Type} (p : Char → Bool) : List Char → Caps →
    (List Char → Caps → Option α) → Option α
  | [], caps, k => k [] caps
  | c :: t, caps, k =>
    mfirst (k (c :: t) caps) (fun _ => if p c then sL p t caps k else none)

/-- Backtracking matcher in continuation-passing style.  `mmatch re s caps k`
matches `re` against a prefix of `s` and passes the rest of the input and the
updated captures to `k`, exploring alternatives in the same order as the
JavaScript engine. -/
def mmatch {α : Type} : RE → List Char → Caps →
    (List Char → Caps → Option α) → Option α
  | .eps, s, caps, k => k s caps
  | .lit c, s, caps, k =>
    match s with
    | [] => none
    | c1 :: t => if c1 = c then k t caps else none
  | .cls p, s, caps, k =>
    match s with
    | [] => none
    | c1 :: t => if p c1 then k t caps else none
  | .seq a b, s, caps, k => mmatch a s caps (fun s1 c1 => mmatch b s1 c1 k)
  | .alt a b, s, caps, k =>
    mfirst (mmatch a s caps k) (fun _ => mmatch b s caps k)
  | .opt a, s, caps, k => mfirst (mmatch a s caps k) (fun _ => k s caps)
  | .starG p, s, caps, k => sG p s caps k
  | .starL p, s, caps, k => sL p s caps k
  | .endS, s, caps, k => if s.isEmpty then k s caps else none
  | .endM, s, caps, k =>
    match s with
    | [] => k s caps
    | c :: _ => if c = '\n' then k s caps else none
  | .grp n a, s, caps, k =>
    mmatch a s caps (fun s1 c1 => k s1 (setCap n (s.take (s.length - s1.length)) c1))

/-- Match `re` at the start of `s`; on success return the captures and the
remaining input (i.e. the suffix after the matched prefix). -/
def matchAt (re : RE) (s : List Char) : Option (Caps × List Char) :=
  mmatch re s [] (fun rest caps => some (caps, rest))

/-- Match `^re$`: `re` must consume the whole input. -/
def fullMatch (re : RE) (s : List Char) : Option Caps :=
  mmatch re s [] (fun rest caps => if rest.isEmpty then some caps else none)

/-- Does `re` match anywhere in `s` (JavaScript `RegExp.test` for a pattern
with no anchors at the ends)? -/
def testRE (re : RE) : List Char → Bool
  | [] => (matchAt re []).isSome
  | s@(_ :: t) => (matchAt re s).isSome || testRE re t

/-- Global replacement, JavaScript `String.replace(/re/g, build)`: scan left
to right, replacing each leftmost non-overlapping match with `build caps` and
continuing after it.  `fuel` bounds the number of scanning steps; callers
pass `s.length + 1`, which suffices because every step either consumes a
non-empty match or one character. -/
def scanRepl (re : RE) (build : Caps → List Char) : Nat → List Char → List Char
  | 0, s => s
  | fuel + 1, s =>
    match matchAt re s with
    | some (caps, rest) =>
      if rest.length < s.length then build caps ++ scanRepl re build fuel rest
      else s
    | none =>
      match s with
      | [] => []
      | c :: t => c :: scanRepl re build fuel t

/-- Global replacement with default fuel. -/
def replaceAll (re : RE) (build : Caps → List Char) (s : List Char) : List Char :=
  scanRepl re build (s.length + 1) s

/-- Right-nested sequencing of a list of patterns. -/
def seqs : List RE → RE := fun l => l.foldr RE.seq RE.eps

/-- Greedy plus over a class, `p+`. -/
def plusG (p : Char → Bool) : RE := RE.seq (RE.cls p) (RE.starG p)

/-- Lazy plus over a class, `p+?`. -/
def plusL (p : Char → Bool) : RE := RE.seq (RE.cls p) (RE.starL p)

/-- `[A-Z]{2,}` (greedy). -/
def upper2 : RE := RE.seq (RE.cls upperC) (plusG upperC)

/-- Is `pat` a prefix of `s`? -/
def lstarts : List Char → List Char → Bool
  | [], _ => true
  | _ :: _, [] => false
  | p :: ps, c :: cs => p = c && lstarts ps cs

/-- Does `pat` occur as a contiguous substring of `s`
(JavaScript `String.includes`)? -/
def containsSeq (pat : List Char) : List Char → Bool
  | [] => lstarts pat []
  | s@(_ :: t) => lstarts pat s || containsSeq pat t

/-- Drop the longest suffix of `p`-characters (helper for `trimL`). -/
def dwE (p : Char → Bool) : List Char → List Char
  | [] => []
  | c :: t =>
    match dwE p t with
    | [] => if p c then [] else [c]
    | r => c :: r

/-- JavaScript `String.trim`: drop whitespace from both ends. -/
def trimL (l : List Char) : List Char := dwE jsSpace (l.dropWhile jsSpace)

/-- JavaScript `String.split('\n')` on character lists. -/
def splitNL : List Char → List (List Char)
  | [] => [[]]
  | c :: t =>
    match splitNL t with
    | [] => [[c]]
    | h :: r => if c = '\n' then [] :: h :: r else (c :: h) :: r

/-- JavaScript `Array.join('\n')` on character lists. -/
def joinNL : List (List Char) → List Char
  | [] => []
  | [l] => l
  | l :: l2 :: ls => l ++ '\n' :: joinNL (l2 :: ls)

/-! ## Embedding of `mermaidToReactFlow.ts` -/

/-- The seven node shapes of `MermaidNodeType` in
`mermaidToReactFlow.ts`. -/
inductive MermaidNodeType where
  | rectangle
  | diamond
  | rounded
  | hexagon
  | parallelogram
  | cylinder
  | circle
deriving DecidableEq, Repr

/-- The string tag of a node type (the TypeScript union is string-valued). -/
def MermaidNodeType.tag : MermaidNodeType → String
  | .rectangle => "rectangle"
  | .diamond => "diamond"
  | .rounded => "rounded"
  | .hexagon => "hexagon"
  | .parallelogram => "parallelogram"
  | .cylinder => "cylinder"
  | .circle => "circle"

/-- `ParsedNode` from `mermaidToReactFlow.ts`. -/
structure ParsedNode where
  id : String
  label : String
  type : MermaidNodeType
deriving DecidableEq, Repr

/-- `ParsedEdge` from `mermaidToReactFlow.ts` (the optional `animated` field
is always assigned a boolean by `parseLine`, so we model it as `Bool`). -/
structure ParsedEdge where
  id : String
  source : String
  target : String
  label : Option String
  animated : Bool
deriving DecidableEq, Repr

/-- `/^\{(.+?)\}$/` — the diamond pattern of `determineNodeType`. -/
def diamondRE : RE := seqs [.lit lbr, .grp 1 (plusL jsDot), .lit rbr]

/-- `/^\{\{(.+?)\}\}$/` — the hexagon pattern of `determineNodeType`. -/
def hexagonRE : RE := seqs [.lit lbr, .lit lbr, .grp 1 (plusL jsDot), .lit rbr, .lit rbr]

/-- `/^\(\[(.+?)\]\)$/` — first rounded pattern of `determineNodeType`. -/
def roundedARE : RE := seqs [.lit '(', .lit '[', .grp 1 (plusL jsDot), .lit ']', .lit ')']

/-- `/^\((.+?)\)$/` — second rounded pattern of `determineNodeType`. -/
def roundedBRE : RE := seqs [.lit '(', .grp 1 (plusL jsDot), .lit ')']

/-- `/^\[\/(.+?)\/\]$/` — first parallelogram pattern. -/
def paraARE : RE := seqs [.lit '[', .lit '/', .grp 1 (plusL jsDot), .lit '/', .lit ']']

/-- `/^\[\\(.+?)\\\]$/` — second parallelogram pattern. -/
def paraBRE : RE := seqs [.lit '[', .lit '\\', .grp 1 (plusL jsDot), .lit '\\', .lit ']']

/-- `/^\[\((.+?)\)\]$/` — the cylinder pattern. -/
def cylinderRE : RE := seqs [.lit '[', .lit '(', .grp 1 (plusL jsDot), .lit ')', .lit ']']

/-- `/^\(\((.+?)\)\)$/` — the circle pattern. -/
def circleRE : RE := seqs [.lit '(', .lit '(', .grp 1 (plusL jsDot), .lit ')', .lit ')']

/-- `/^\[(.+?)\]$/` — the rectangle pattern. -/
def rectangleRE : RE := seqs [.lit '[', .grp 1 (plusL jsDot), .lit ']']

/-- Run an anchored pattern and extract capture group 1. -/
def run1 (re : RE) (s : List Char) : Option (List Char) :=
  (fullMatch re s).map (getCap 1)

/-- `determineNodeType` from `mermaidToReactFlow.ts`: classify a node
definition substring into a node type and a trimmed label.  The patterns are
tried in exactly the source order (diamond, hexagon, rounded, parallelogram,
cylinder, circle, rectangle, fallback). -/
def determineNodeType (nodeDefinition : List Char) : MermaidNodeType × List Char :=
  match run1 diamondRE nodeDefinition with
  | some l => (.diamond, trimL l)
  | none =>
  match run1 hexagonRE nodeDefinition with
  | some l => (.hexagon, trimL l)
  | none =>
  match mfirst (run1 roundedARE nodeDefinition) (fun _ => run1 roundedBRE nodeDefinition) with
  | some l => (.rounded, trimL l)
  | none =>
  match mfirst (run1 paraARE nodeDefinition) (fun _ => run1 paraBRE nodeDefinition) with
  | some l => (.parallelogram, trimL l)
  | none =>
  match run1 cylinderRE nodeDefinition with
  | some l => (.cylinder, trimL l)
  | none =>
  match run1 circleRE nodeDefinition with
  | some l => (.circle, trimL l)
  | none =>
  match run1 rectangleRE nodeDefinition with
  | some l => (.rectangle, trimL l)
  | none => (.rectangle, trimL nodeDefinition)

/-- `\[.*?\]` (lazy). -/
def brSquare : RE := seqs [.lit '[', .starL jsDot, .lit ']']

/-- `\{.*?\}` (lazy). -/
def brCurly : RE := seqs [.lit lbr, .starL jsDot, .lit rbr]

/-- `\(.*?\)` (lazy). -/
def brParen : RE := seqs [.lit '(', .starL jsDot, .lit ')']

/-- `(\[.*?\]|\{.*?\}|\(.*?\))` — the bracket alternation, capturing as
group 2 (used by `nodeDefPattern` and the standalone-node pattern). -/
def brAltCap : RE := .grp 2 (.alt brSquare (.alt brCurly brParen))

/-- `(?:\[.*?\]|\{.*?\}|\(.*?\))?` — the optional non-capturing bracket
alternation used inside the edge patterns. -/
def brAltOpt : RE := .opt (.alt brSquare (.alt brCurly brParen))

/-- `(\w+)(\[.*?\]|\{.*?\}|\(.*?\))` — `nodeDefPattern`. -/
def nodeDefRE : RE := seqs [.grp 1 (plusG wordC), brAltCap]

/-- `\s*` -/
def ws : RE := .starG jsSpace

/-- Edge pattern 1:
`/^(\w+)(?:\[.*?\]|\{.*?\}|\(.*?\))?\s*-->\|(.+?)\|\s*(\w+)(?:\[.*?\]|\{.*?\}|\(.*?\))?$/` -/
def edge1RE : RE := seqs [.grp 1 (plusG wordC), brAltOpt, ws,
  .lit '-', .lit '-', .lit '>', .lit '|', .grp 2 (plusL jsDot), .lit '|', ws,
  .grp 3 (plusG wordC), brAltOpt]

/-- Edge pattern 2:
`/^(\w+)(?:\[.*?\]|\{.*?\}|\(.*?\))?\s*--\s*(.+?)\s*-->\s*(\w+)(?:\[.*?\]|\{.*?\}|\(.*?\))?$/` -/
def edge2RE : RE := seqs [.grp 1 (plusG wordC), brAltOpt, ws,
  .lit '-', .lit '-', ws, .grp 2 (plusL jsDot), ws,
  .lit '-', .lit '-', .lit '>', ws, .grp 3 (plusG wordC), brAltOpt]

/-- Edge pattern 3:
`/^(\w+)(?:\[.*?\]|\{.*?\}|\(.*?\))?\s*-\.->\|(.+?)\|\s*(\w+)(?:\[.*?\]|\{.*?\}|\(.*?\))?$/` -/
def edge3RE : RE := seqs [.grp 1 (plusG wordC), brAltOpt, ws,
  .lit '-', .lit '.', .lit '-', .lit '>', .lit '|', .grp 2 (plusL jsDot), .lit '|', ws,
  .grp 3 (plusG wordC), brAltOpt]

/-- Edge pattern 4:
`/^(\w+)(?:\[.*?\]|\{.*?\}|\(.*?\))?\s*-->\s*(\w+)(?:\[.*?\]|\{.*?\}|\(.*?\))?$/` -/
def edge4RE : RE := seqs [.grp 1 (plusG wordC), brAltOpt, ws,
  .lit '-', .lit '-', .lit '>', ws, .grp 2 (plusG wordC), brAltOpt]

/-- Edge pattern 5:
`/^(\w+)(?:\[.*?\]|\{.*?\}|\(.*?\))?\s*-\.->\s*(\w+)(?:\[.*?\]|\{.*?\}|\(.*?\))?$/` -/
def edge5RE : RE := seqs [.grp 1 (plusG wordC), brAltOpt, ws,
  .lit '-', .lit '.', .lit '-', .lit '>', ws, .grp 2 (plusG wordC), brAltOpt]

/-- Edge pattern 6:
`/^(\w+)(?:\[.*?\]|\{.*?\}|\(.*?\))?\s*==>\s*(\w+)(?:\[.*?\]|\{.*?\}|\(.*?\))?$/` -/
def edge6RE : RE := seqs [.grp 1 (plusG wordC), brAltOpt, ws,
  .lit '=', .lit '=', .lit '>', ws, .grp 2 (plusG wordC), brAltOpt]

/-- The standalone-node pattern `/^(\w+)(\[.*?\]|\{.*?\}|\(.*?\))$/`. -/
def standaloneRE : RE := seqs [.grp 1 (plusG wordC), brAltCap]

/-- Run an anchored labeled edge pattern: groups 1 (source), 2 (label),
3 (target). -/
def run3 (re : RE) (s : List Char) : Option (List Char × List Char × List Char) :=
  (fullMatch re s).map (fun caps => (getCap 1 caps, getCap 2 caps, getCap 3 caps))

/-- Run an anchored bare edge pattern: groups 1 (source), 2 (target). -/
def run2 (re : RE) (s : List Char) : Option (List Char × List Char) :=
  (fullMatch re s).map (fun caps => (getCap 1 caps, getCap 2 caps))

/-- Mutable parser state of `parseMermaidToReactFlow`: the node table
(`nodesMap`, in insertion order) and the edge list. -/
structure PState where
  nodes : List ParsedNode
  edges : List ParsedEdge
deriving DecidableEq, Repr

/-- `nodesMap.has(id)`. -/
def hasNode (st : PState) (id : String) : Bool := st.nodes.any (fun n => n.id = id)

/-- `nodesMap.set(id, { id, label, type })` guarded by `!nodesMap.has(id)`,
with the label and type computed by `determineNodeType`. -/
def registerNode (st : PState) (id nodeDefinition : List Char) : PState :=
  if hasNode st (String.mk id) then st
  else
    let r := determineNodeType nodeDefinition
    { st with nodes := st.nodes ++ [⟨String.mk id, String.mk r.2, r.1⟩] }

/-- The `nodeDefPattern.exec` loop of `parseLine`: scan the line left to
right for `(\w+)(bracket)` occurrences, registering each.  `fuel` bounds the
scan (callers pass `length + 1`; every step consumes at least one
character). -/
def scanNodes (st : PState) : Nat → List Char → PState
  | 0, _ => st
  | fuel + 1, s =>
    match matchAt nodeDefRE s with
    | some (caps, rest) =>
      if rest.length < s.length then
        scanNodes (registerNode st (getCap 1 caps) (getCap 2 caps)) fuel rest
      else st
    | none =>
      match s with
      | [] => st
      | _ :: t => scanNodes st fuel t

/-- Try the six edge patterns in source order; return
`(source, optional label, target)` of the first match. -/
def tryEdge (t : List Char) : Option (List Char × Option (List Char) × List Char) :=
  match run3 edge1RE t with
  | some (s, l, tg) => some (s, some l, tg)
  | none =>
  match run3 edge2RE t with
  | some (s, l, tg) => some (s, some l, tg)
  | none =>
  match run3 edge3RE t with
  | some (s, l, tg) => some (s, some l, tg)
  | none =>
  match run2 edge4RE t with
  | some (s, tg) => some (s, none, tg)
  | none =>
  match run2 edge5RE t with
  | some (s, tg) => some (s, none, tg)
  | none =>
  match run2 edge6RE t with
  | some (s, tg) => some (s, none, tg)
  | none => none

/-- `'-.-'` as a character list. -/
def dotDash : List Char := ['-', '.', '-']

/-- Synthesize a rectangle node for an edge endpoint that is not yet in the
node table (`nodesMap.set(id, { id, label: id, type: 'rectangle' })`). -/
def ensureNode (st : PState) (id : List Char) : PState :=
  if hasNode st (String.mk id) then st
  else { st with nodes := st.nodes ++ [⟨String.mk id, String.mk id, .rectangle⟩] }

/-- `parseLine` from `mermaidToReactFlow.ts`.  Processes one line: trims it,
skips structural lines, registers inline node declarations, then tries the
edge patterns (recording at most one edge, with `animated` true iff the
trimmed line contains `-.-`), and finally the standalone-node pattern. -/
def parseLine (line : List Char) (st : PState) : PState :=
  let t := trimL line
  if t = [] then st
  else if lstarts "%%".data t then st
  else if lstarts "flowchart".data t then st
  else if lstarts "graph".data t then st
  else if lstarts "subgraph".data t then st
  else if t = "end".data then st
  else if lstarts "style".data t then st
  else if lstarts "classDef".data t then st
  else if lstarts "class ".data t then st
  else
    let st1 := scanNodes st (t.length + 1) t
    match tryEdge t with
    | some (src, labOpt, tgt) =>
      let st2 := ensureNode st1 src
      let st3 := ensureNode st2 tgt
      let isDotted := containsSeq dotDash t
      { st3 with
        edges := st3.edges ++
          [⟨"e-" ++ String.mk src ++ "-" ++ String.mk tgt ++ "-" ++
              Nat.repr st3.edges.length,
            String.mk src, String.mk tgt, labOpt.map String.mk, isDotted⟩] }
    | none =>
      match fullMatch standaloneRE t with
      | some caps => registerNode st1 (getCap 1 caps) (getCap 2 caps)
      | none => st1

/-- Process a list of lines in order, threading the parser state. -/
def procLines (lines : List (List Char)) (st : PState) : PState :=
  lines.foldl (fun s l => parseLine l s) st

/-- The parser state after processing all lines of `code`. -/
def buildState (code : String) : PState := procLines (splitNL code.data) ⟨[], []⟩


/-! ## Embedding of the serializer (`frontend/src/types/api.ts`) -/

/-- A ReactFlow node as consumed by the serializer: `id`, `type` (string,
empty standing for the absent/falsy case) and `data.label` (likewise). -/
structure RFNode where
  id : String
  type : String
  label : String
deriving DecidableEq, Repr

/-- A ReactFlow edge as consumed by the serializer. -/
structure RFEdge where
  id : String
  source : String
  target : String
  label : Option String
  animated : Bool
deriving DecidableEq, Repr

/-- The edge-label escaping step of `reactFlowToMermaid`:
`edge.label.replace(/"/g, "'")`. -/
def escEdgeLabel (l : List Char) : List Char :=
  l.map (fun c => if c = '"' then '\'' else c)

/-- The node-label escaping chain of `nodeTypeToMermaidSyntax`:
`label.replace(/"/g, "'").replace(/\[/g, '(').replace(/\]/g, ')')`. -/
def escNodeLabel (l : List Char) : List Char :=
  ((l.map (fun c => if c = '"' then '\'' else c)).map
    (fun c => if c = '[' then '(' else c)).map
    (fun c => if c = ']' then ')' else c)

/-- `nodeTypeToMermaidSyntax` from `api.ts`: wrap the escaped label in the
bracket pair of the node type (the `switch` treats `'rectangle'` and the
default case identically). -/
def nodeTypeToMermaidSyntax (type : String) (label : List Char) : List Char :=
  let e := escNodeLabel label
  if type = "diamond" then lbr :: e ++ [rbr]
  else if type = "rounded" then '(' :: e ++ [')']
  else if type = "hexagon" then lbr :: lbr :: e ++ [rbr, rbr]
  else if type = "parallelogram" then '[' :: '/' :: e ++ ['/', ']']
  else if type = "cylinder" then '[' :: '(' :: e ++ [')', ']']
  else if type = "circle" then '(' :: '(' :: e ++ [')', ')']
  else '[' :: e ++ [']']

/-- The edge line built by `reactFlowToMermaid` for resolved source and
target parts: labeled `-->|…|` when the edge has a non-empty string label
(the JavaScript guard `edge.label && typeof edge.label === 'string'`),
otherwise a bare `-->`. -/
def edgeLineOf (sp tp : List Char) (label : Option String) : List Char :=
  match label with
  | some l =>
    if l = "" then "    ".data ++ sp ++ " --> ".data ++ tp
    else "    ".data ++ sp ++ " -->|".data ++ escEdgeLabel l.data ++ "| ".data ++ tp
  | none => "    ".data ++ sp ++ " --> ".data ++ tp

/-- The `id<bracket-pair>` declaration of a node
(`nodeDefinitions.set(node.id, node.id + syntax)` in `reactFlowToMermaid`,
with the falsy defaults `'rectangle'` and `'Untitled'`). -/
def nodeDefinitionOf (n : RFNode) : List Char :=
  n.id.data ++
    nodeTypeToMermaidSyntax (if n.type = "" then "rectangle" else n.type)
      (if n.label = "" then "Untitled".data else n.label.data)

/-- One step of the edge loop of `reactFlowToMermaid`: state is the emitted
lines plus the `definedNodes` set; edges whose endpoints are unknown node ids
are skipped. -/
def serEdgeStep (defs : List (String × List Char))
    (acc : List (List Char) × List String) (e : RFEdge) :
    List (List Char) × List String :=
  match defs.find? (fun p => p.1 = e.source), defs.find? (fun p => p.1 = e.target) with
  | some ps, some pt =>
    let sp := if e.source ∈ acc.2 then e.source.data else ps.2
    let defined1 := if e.source ∈ acc.2 then acc.2 else acc.2 ++ [e.source]
    let tp := if e.target ∈ defined1 then e.target.data else pt.2
    let defined2 := if e.target ∈ defined1 then defined1 else defined1 ++ [e.target]
    (acc.1 ++ [edgeLineOf sp tp e.label], defined2)
  | _, _ => acc

/-- `reactFlowToMermaid` from `api.ts`, producing the character list of the
emitted DSL text. -/
def reactFlowToMermaidL (nodes : List RFNode) (edges : List RFEdge) : List Char :=
  if nodes = [] then "flowchart TD\n    A[Empty Diagram]".data
  else
    let defs := nodes.map (fun n => (n.id, nodeDefinitionOf n))
    let acc := edges.foldl (serEdgeStep defs) (["flowchart TD".data], [])
    let lines :=
      nodes.foldl
        (fun ls n =>
          if n.id ∈ acc.2 then ls
          else
            match defs.find? (fun p => p.1 = n.id) with
            | some p => ls ++ ["    ".data ++ p.2]
            | none => ls)
        acc.1
    joinNL lines

/-- `reactFlowToMermaid` as a `String` function. -/
def reactFlowToMermaid (nodes : List RFNode) (edges : List RFEdge) : String :=
  String.mk (reactFlowToMermaidL nodes edges)

/-! ## Embedding of the layout (`applyLayout` in `mermaidToReactFlow.ts`)

The node box dimensions are computed by the source itself
(`getNodeDimensions`).  The 2D coordinates are delegated by the source to the
external `dagre` library; following the specification's §4.3 contract we
model them with a layered layout: longest-path ranks obtained as the fixed
point of a monotone iteration, vertical position `40 + 180·rank` (box height
is at most 80 and the spec rank separation is 100), and horizontal positions
accumulated left-to-right within a rank with the spec's gap of 80. -/

/-- `getNodeDimensions` from `applyLayout`:
width `min(max(150, 8·label_length + 40), 300)`, height 80 for diamonds and
50 otherwise. -/
def getNodeDimensions (n : ParsedNode) : Nat × Nat :=
  (min (max 150 (n.label.length * 8 + 40)) 300,
   if n.type = .diamond then 80 else 50)

/-- One step of the rank iteration: a node's rank is one more than the
maximum rank of the sources of its incoming edges (0 if it has none).
Modelled from the spec: "assign each node to a rank
(longest-path-from-source heuristic is acceptable)". -/
def rankStep (edges : List ParsedEdge) (r : String → Nat) : String → Nat :=
  fun v => ((edges.filter (fun e => e.target = v)).map (fun e => r e.source + 1)).foldr max 0

/-- Iterated rank relaxation starting from the all-zero ranking. -/
def rankIter (edges : List ParsedEdge) : Nat → String → Nat
  | 0 => fun _ => 0
  | k + 1 => rankStep edges (rankIter edges k)

/-- Modelled from the spec: the rank (vertical layer) of a node id; the
iteration count `n² + 1` reaches the longest-path fixed point on every
acyclic graph (proved below). -/
def nRank (nodes : List ParsedNode) (edges : List ParsedEdge) : String → Nat :=
  rankIter edges (nodes.length * nodes.length + 1)

/-- Modelled from the spec: the horizontal coordinate of the node at list
position `i`: margin 40 plus the widths (plus the 80 gap) of the earlier
nodes sharing its rank. -/
def xPos (nodes : List ParsedNode) (rk : String → Nat) (n : ParsedNode) (i : Nat) : Nat :=
  40 + (((nodes.take i).filter (fun m => rk m.id = rk n.id)).map
    (fun m => (getNodeDimensions m).1 + 80)).sum

/-- Modelled from the spec: the vertical coordinate of a node: margin 40
plus 180 per rank (max box height 80 plus the rank separation 100). -/
def yPos (rk : String → Nat) (n : ParsedNode) : Nat := 40 + 180 * rk n.id

/-- A positioned ReactFlow node as returned by `applyLayout`: the parsed
node's id/type/label plus a top-left position and the box dimensions. -/
structure PositionedNode where
  id : String
  type : String
  label : String
  x : Nat
  y : Nat
  width : Nat
  height : Nat
deriving DecidableEq, Repr

/-- `applyLayout` from `mermaidToReactFlow.ts`: box dimensions from
`getNodeDimensions` (source); coordinates from the layered model above
(modelled from the spec, standing in for the external `dagre.layout`). -/
def applyLayout (nodes : List ParsedNode) (edges : List ParsedEdge) :
    List PositionedNode :=
  let rk := nRank nodes edges
  nodes.enum.map (fun p =>
    { id := p.2.id
      type := p.2.type.tag
      label := p.2.label
      x := xPos nodes rk p.2 p.1
      y := yPos rk p.2
      width := (getNodeDimensions p.2).1
      height := (getNodeDimensions p.2).2 })

/-- The result of `parseMermaidToReactFlow` (`ParseResult` in the source;
the constant ReactFlow styling attached by `convertEdges` is not modelled). -/
structure ParseResult where
  nodes : List PositionedNode
  edges : List ParsedEdge
  error : Option String
deriving DecidableEq, Repr

/-- `parseMermaidToReactFlow` from `mermaidToReactFlow.ts`: reject empty
input, process every line, fail with the no-nodes error if the node table is
empty, otherwise lay out the nodes and return the graph. -/
def parseMermaidToReactFlow (mermaidCode : String) : ParseResult :=
  if mermaidCode = "" then
    { nodes := [], edges := [], error := some "No Mermaid code provided" }
  else
    let st := buildState mermaidCode
    if st.nodes = [] then
      { nodes := [], edges := [], error := some "No valid nodes found in Mermaid code" }
    else
      { nodes := applyLayout st.nodes st.edges, edges := st.edges, error := none }

/-! ## Embedding of the sanitizer (`sanitizeMermaidCode` in
`DiagramCanvas.tsx`) -/

/-- `/\[([^\]]*)\(([^)]*)\)([^\]]*)\]/` — the parenthesis-in-bracket
pattern of sanitizer repair 1. -/
def paren1RE : RE := seqs [.lit '[',
  .grp 1 (.starG (fun c => !(c = ']'))), .lit '(',
  .grp 2 (.starG (fun c => !(c = ')'))), .lit ')',
  .grp 3 (.starG (fun c => !(c = ']'))), .lit ']']

/-- The replacement of repair 1:
`` `[${before}${after ? after.trim() : ''} - ${parenContent}]` ``. -/
def paren1Build (caps : Caps) : List Char :=
  let before := getCap 1 caps
  let paren := getCap 2 caps
  let after := getCap 3 caps
  '[' :: before ++ (if after = [] then [] else trimL after) ++
    ' ' :: '-' :: ' ' :: paren ++ [']']

/-- One global replacement pass of repair 1. -/
def replParen1 (s : List Char) : List Char := replaceAll paren1RE paren1Build s

/-- The `while` loop of repair 1, bounded by fuel.  Each pass of the global
replacement removes at least one `(`, so `count '(' + 1` passes suffice. -/
def paren1Loop : Nat → List Char → List Char
  | 0, s => s
  | fuel + 1, s => if testRE paren1RE s then paren1Loop fuel (replParen1 s) else s

/-- Repair 2: `sanitized.replace(/```/g, '')` — delete triple-backtick
sequences, leftmost first. -/
def rmTicks : List Char → List Char
  | [] => []
  | [a] => [a]
  | [a, b] => [a, b]
  | a :: b :: c :: r =>
    if a = btick && b = btick && c = btick then rmTicks r
    else a :: rmTicks (b :: c :: r)

/-- `/]\s+([A-Z]{2,})\s*(\n|$)/g` — repair 3. -/
def rule3RE : RE := seqs [.lit ']', plusG jsSpace, .grp 1 upper2, ws,
  .grp 2 (.alt (.lit '\n') .endS)]

/-- Replacement `']$2'` of repair 3. -/
def rule3Build (caps : Caps) : List Char := ']' :: getCap 2 caps

/-- `/\]\s*([A-Z]{2,})\s*$/gm` — repair 4 (multiline `$`). -/
def rule4RE : RE := seqs [.lit ']', ws, .grp 1 upper2, ws, .endM]

/-- Replacement `']'` of repair 4. -/
def rule4Build (_ : Caps) : List Char := [']']

/-- `/(-->[^\[\n]*\[[^\]]+\])\s+([A-Z]{2,})\s*(\n|$)/g` — repair 5. -/
def rule5RE : RE := seqs [
  .grp 1 (seqs [.lit '-', .lit '-', .lit '>',
    .starG (fun c => !(c = '[' || c = '\n')), .lit '[',
    plusG (fun c => !(c = ']')), .lit ']']),
  plusG jsSpace, .grp 2 upper2, ws, .grp 3 (.alt (.lit '\n') .endS)]

/-- Replacement `'$1$3'` of repair 5. -/
def rule5Build (caps : Caps) : List Char := getCap 1 caps ++ getCap 3 caps

/-- The length of `dropWhile` never exceeds the input's. -/
theorem lenDropWhileLe (p : Char → Bool) : ∀ l : List Char,
    (l.dropWhile p).length ≤ l.length
  | [] => Nat.le_refl _
  | c :: t => by
    simp only [List.dropWhile]
    split
    · exact Nat.le_succ_of_le (lenDropWhileLe p t)
    · exact Nat.le_refl _

/-- Worker for repair 6.  `inRun = true` means the scanner is inside a run
of two or more spaces/tabs whose single replacement space has not been
emitted yet. -/
def collapseWsAux : Bool → List Char → List Char
  | false, [] => []
  | false, [c] => [c]
  | false, c :: d :: t =>
    if spTab c then
      if spTab d then collapseWsAux true (d :: t)
      else c :: collapseWsAux false (d :: t)
    else c :: collapseWsAux false (d :: t)
  | true, [] => [' ']
  | true, c :: t =>
    if spTab c then collapseWsAux true t else ' ' :: c :: collapseWsAux false t

/-- Repair 6: collapse every run of two or more spaces/tabs to one space
(`/[ \t]{2,}/g` → `' '`); lone spaces and tabs are kept. -/
def collapseWs (l : List Char) : List Char := collapseWsAux false l

/-- `sanitizeMermaidCode` on character lists: the five repairs in source
order followed by whitespace collapsing and trimming. -/
def sanitizeL (l : List Char) : List Char :=
  let s1 := paren1Loop (l.count '(' + 1) l
  let s2 := rmTicks s1
  let s3 := replaceAll rule3RE rule3Build s2
  let s4 := replaceAll rule4RE rule4Build s3
  let s5 := replaceAll rule5RE rule5Build s4
  trimL (collapseWs s5)

/-- `sanitizeMermaidCode` from `DiagramCanvas.tsx` (empty input is returned
unchanged, the JavaScript `if (!code) return code` guard). -/
def sanitizeMermaidCode (code : String) : String :=
  if code = "" then code else String.mk (sanitizeL code.data)


/-! ## Structural lemmas about the parser state -/

/-- No two nodes of the table share an id. -/
def distinctIds (l : List ParsedNode) : Prop := l.Pairwise (fun a b => a.id ≠ b.id)

theorem mem_registerNode {n : ParsedNode} (st : PState) (i d : List Char)
    (h : n ∈ st.nodes) : n ∈ (registerNode st i d).nodes := by
  unfold registerNode
  split
  · exact h
  · exact List.mem_append_left _ h

theorem distinct_registerNode (st : PState) (i d : List Char)
    (h : distinctIds st.nodes) : distinctIds (registerNode st i d).nodes := by
  unfold registerNode
  split
  · exact h
  · next hno =>
    refine List.pairwise_append.2 ⟨h, List.pairwise_singleton _ _, ?_⟩
    intro a ha b hb
    simp only [List.mem_singleton] at hb
    subst hb
    intro heq
    exact hno (List.any_eq_true.2 ⟨a, ha, by simp [heq]⟩)

theorem mem_ensureNode {n : ParsedNode} (st : PState) (i : List Char)
    (h : n ∈ st.nodes) : n ∈ (ensureNode st i).nodes := by
  unfold ensureNode
  split
  · exact h
  · exact List.mem_append_left _ h

theorem distinct_ensureNode (st : PState) (i : List Char)
    (h : distinctIds st.nodes) : distinctIds (ensureNode st i).nodes := by
  unfold ensureNode
  split
  · exact h
  · next hno =>
    refine List.pairwise_append.2 ⟨h, List.pairwise_singleton _ _, ?_⟩
    intro a ha b hb
    simp only [List.mem_singleton] at hb
    subst hb
    intro heq
    exact hno (List.any_eq_true.2 ⟨a, ha, by simp [heq]⟩)

theorem mem_scanNodes {n : ParsedNode} :
    ∀ (fuel : Nat) (s : List Char) (st : PState), n ∈ st.nodes →
      n ∈ (scanNodes st fuel s).nodes
  | 0, _, _, h => h
  | fuel + 1, s, st, h => by
    unfold scanNodes
    cases hm : matchAt nodeDefRE s with
    | some pr =>
      cases pr with
      | mk caps rest =>
        dsimp only
        split
        · exact mem_scanNodes fuel rest _ (mem_registerNode st _ _ h)
        · exact h
    | none =>
      cases s with
      | nil => exact h
      | cons c t => exact mem_scanNodes fuel t st h

theorem distinct_scanNodes :
    ∀ (fuel : Nat) (s : List Char) (st : PState), distinctIds st.nodes →
      distinctIds (scanNodes st fuel s).nodes
  | 0, _, _, h => h
  | fuel + 1, s, st, h => by
    unfold scanNodes
    cases hm : matchAt nodeDefRE s with
    | some pr =>
      cases pr with
      | mk caps rest =>
        dsimp only
        split
        · exact distinct_scanNodes fuel rest _ (distinct_registerNode st _ _ h)
        · exact h
    | none =>
      cases s with
      | nil => exact h
      | cons c t => exact distinct_scanNodes fuel t st h

theorem mem_parseLine {n : ParsedNode} (l : List Char) (st : PState)
    (h : n ∈ st.nodes) : n ∈ (parseLine l st).nodes := by
  unfold parseLine
  dsimp only
  iterate 9 (split; · exact h)
  have h1 := mem_scanNodes (trimL l).length.succ (trimL l) st h
  cases htry : tryEdge (trimL l) with
  | some v =>
    obtain ⟨src, labOpt, tgt⟩ := v
    dsimp only
    exact mem_ensureNode _ _ (mem_ensureNode _ _ h1)
  | none =>
    dsimp only
    cases hsm : fullMatch standaloneRE (trimL l) with
    | some caps => exact mem_registerNode _ _ _ h1
    | none => exact h1

theorem distinct_parseLine (l : List Char) (st : PState)
    (h : distinctIds st.nodes) : distinctIds (parseLine l st).nodes := by
  unfold parseLine
  dsimp only
  iterate 9 (split; · exact h)
  have h1 := distinct_scanNodes (trimL l).length.succ (trimL l) st h
  cases htry : tryEdge (trimL l) with
  | some v =>
    obtain ⟨src, labOpt, tgt⟩ := v
    dsimp only
    exact distinct_ensureNode _ _ (distinct_ensureNode _ _ h1)
  | none =>
    dsimp only
    cases hsm : fullMatch standaloneRE (trimL l) with
    | some caps => exact distinct_registerNode _ _ _ h1
    | none => exact h1

theorem mem_procLines {n : ParsedNode} :
    ∀ (lines : List (List Char)) (st : PState), n ∈ st.nodes →
      n ∈ (procLines lines st).nodes
  | [], _, h => h
  | l :: ls, st, h => mem_procLines ls _ (mem_parseLine l st h)

theorem distinct_procLines :
    ∀ (lines : List (List Char)) (st : PState), distinctIds st.nodes →
      distinctIds (procLines lines st).nodes
  | [], _, h => h
  | l :: ls, st, h => distinct_procLines ls _ (distinct_parseLine l st h)

theorem procLines_append (a b : List (List Char)) (st : PState) :
    procLines (a ++ b) st = procLines b (procLines a st) :=
  List.foldl_append _ _ _ _

/-! ## Projections of `applyLayout` -/

theorem map_map_enumFrom {α β : Type} (h : Nat × α → β) (g : α → β)
    (hh : ∀ (i : Nat) (a : α), h (i, a) = g a) :
    ∀ (n : Nat) (l : List α), (List.enumFrom n l).map h = l.map g
  | _, [] => rfl
  | n, a :: t => by
    simp only [List.enumFrom, List.map_cons, hh, map_map_enumFrom h g hh (n + 1) t]

/-- `applyLayout` assigns each node its `getNodeDimensions` box, in order. -/
theorem applyLayout_dims (nodes : List ParsedNode) (edges : List ParsedEdge) :
    (applyLayout nodes edges).map (fun p => (p.id, p.width, p.height)) =
      nodes.map (fun n => (n.id, (getNodeDimensions n).1, (getNodeDimensions n).2)) := by
  unfold applyLayout
  rw [List.map_map, List.enum]
  exact map_map_enumFrom _ _ (fun i a => rfl) 0 nodes

/-- `applyLayout` preserves each node's id, type tag and label, in order. -/
theorem applyLayout_idTypeLabel (nodes : List ParsedNode) (edges : List ParsedEdge) :
    (applyLayout nodes edges).map (fun p => (p.id, p.type, p.label)) =
      nodes.map (fun n => (n.id, n.type.tag, n.label)) := by
  unfold applyLayout
  rw [List.map_map, List.enum]
  exact map_map_enumFrom _ _ (fun i a => rfl) 0 nodes


/-! ## Claims -/

/-- Claim C2: the claim asserts that the Shape Classifier checks the most
specific delimiter pair first, with `classify("((Decide))") = (Circle,
"Decide")` and `classify("{{Emit}}") = (Hexagon, "Emit")`.  The code checks
the diamond pattern `^\{(.+?)\}$` before the hexagon pattern and the rounded
pattern `^\((.+?)\)$` before the circle pattern, so its hexagon and circle
branches are unreachable: `{{Emit}}` classifies as a Diamond labelled
`{Emit}` and `((Decide))` as Rounded labelled `(Decide)`; only the
`{Decide}` and `[Go]` cases behave as claimed.  This theorem evaluates the
embedded `determineNodeType` at the claim's four inputs. -/
theorem C2_classifier_precedence_failure :
    determineNodeType "\x7b\x7bEmit\x7d\x7d".data =
      (MermaidNodeType.diamond, "\x7bEmit\x7d".data)
    ∧ determineNodeType "((Decide))".data =
      (MermaidNodeType.rounded, "(Decide)".data)
    ∧ determineNodeType "\x7bDecide\x7d".data =
      (MermaidNodeType.diamond, "Decide".data)
    ∧ determineNodeType "[Go]".data = (MermaidNodeType.rectangle, "Go".data) := by
  decide

/-- Claim C1: the claim asserts that `parse(serialize(g))` preserves the
node id/type/label sets for every graph with unique node ids and no
duplicate edges.  The classifier ordering bug refuted in C2 breaks this
round trip: serializing the one-node graph `g` with the Hexagon node
`H`/"Emit" emits `flowchart TD\n    H{{Emit}}`, and re-parsing that text
yields a Diamond node labelled `{Emit` (the node-scan pattern `\{.*?\}`
grabs `{{Emit}` lazily and the diamond branch of the classifier fires
first).  This theorem evaluates the embedded round trip at `g`. -/
theorem C1_roundtrip_hexagon_failure :
    reactFlowToMermaid [⟨"H", "hexagon", "Emit"⟩] [] =
      "flowchart TD\n    H\x7b\x7bEmit\x7d\x7d"
    ∧ (parseMermaidToReactFlow
        (reactFlowToMermaid [⟨"H", "hexagon", "Emit"⟩] [])).nodes.map
          (fun p => (p.id, p.type, p.label)) = [("H", "diamond", "\x7bEmit")] := by
  decide

/-- Claim C6: parsing `"flowchart TD\n    A --> B"` yields exactly two
Rectangle nodes labelled `A` and `B` and one edge from `A` to `B` with no
label and `animated = false`, the edge endpoints being synthesized as
Rectangle nodes labelled with their ids. -/
theorem C6_auto_synthesis :
    (parseMermaidToReactFlow "flowchart TD\n    A --> B").error = none
    ∧ (parseMermaidToReactFlow "flowchart TD\n    A --> B").nodes.map
        (fun p => (p.id, p.type, p.label)) =
          [("A", "rectangle", "A"), ("B", "rectangle", "B")]
    ∧ (parseMermaidToReactFlow "flowchart TD\n    A --> B").edges.map
        (fun e => (e.source, e.target, e.label, e.animated)) =
          [("A", "B", (none : Option String), false)] := by
  decide

/-- Claim C10 (counterexample): the claim asserts that every edge of
`parse(serialize(g))` has `animated = false` for every graph `g`.  The
serializer always emits a solid `-->` arrow, but the parser sets `animated`
from a substring test `line.includes('-.-')` on the whole line, so an edge
*label* containing `-.-` re-parses as an animated edge: for the graph with
the edge `A → B` labelled `-.-` (animated or not), the round-tripped edge
has `animated = true`. -/
theorem C10_animated_label_counterexample :
    (parseMermaidToReactFlow
      (reactFlowToMermaid [⟨"A", "rectangle", "A"⟩, ⟨"B", "rectangle", "B"⟩]
        [⟨"e1", "A", "B", some "-.-", true⟩])).edges.map
          (fun e => (e.source, e.target, e.animated)) = [("A", "B", true)] := by
  decide

/-- Claim C5 (counterexample): the claim asserts that internal `|`
characters of an emitted edge label are replaced.  The serializer only
replaces double quotes (`edge.label.replace(/"/g, "'")`): serializing an
edge labelled `a|b` emits the label verbatim, producing the ambiguous line
`    A[A] -->|a|b| B[B]`. -/
theorem C5_pipe_not_escaped_counterexample :
    reactFlowToMermaid [⟨"A", "rectangle", "A"⟩, ⟨"B", "rectangle", "B"⟩]
        [⟨"e1", "A", "B", some "a|b", false⟩] =
      "flowchart TD\n    A[A] -->|a|b| B[B]"
    ∧ '|' ∈ escEdgeLabel "a|b".data := by
  decide

/-- Claim C3 (counterexample): the Sanitizer is not idempotent.  On
`"] AA\nFOO\nBAR"` repair 3 consumes `] AA\n` (leaving `]\nFOO\nBAR`),
repair 4 then consumes `]\nFOO` across the newline (leaving `]\nBAR`, the
bracket needed to strip `BAR` having been consumed by the overlapping
match), so one pass returns `]\nBAR` while a second pass strips `BAR` as
well and returns `]`. -/
theorem C3_not_idempotent_counterexample :
    sanitizeMermaidCode (sanitizeMermaidCode "] AA\nFOO\nBAR") ≠
      sanitizeMermaidCode "] AA\nFOO\nBAR" := by
  have h1 : sanitizeMermaidCode "] AA\nFOO\nBAR" = "]\nBAR" := by decide
  have h2 : sanitizeMermaidCode "]\nBAR" = "]" := by decide
  rw [h1, h2]
  decide

/-- Claim C4 (counterexample): the claim asserts that the builder fails
with `NoNodesFound` if and only if the node table is empty after processing
all lines.  The empty input is rejected by the `!mermaidCode` guard with
the distinct error `'No Mermaid code provided'` before any line is
processed, even though its node table would be empty, so the biconditional
fails at `""`. -/
theorem C4_empty_input_counterexample :
    (parseMermaidToReactFlow "").error = some "No Mermaid code provided"
    ∧ (buildState "").nodes = []
    ∧ (parseMermaidToReactFlow "").error ≠
        some "No valid nodes found in Mermaid code" := by
  decide

/-- Claim C4 (amended): for every *nonempty* input text, the parser fails
with the no-nodes error exactly when the node table is empty after
processing all lines, and otherwise succeeds, returning the built node
table (with its types and labels) and edge list. -/
theorem C4_no_nodes_iff (code : String) (h : code ≠ "") :
    ((parseMermaidToReactFlow code).error =
        some "No valid nodes found in Mermaid code"
      ↔ (buildState code).nodes = [])
    ∧ ((buildState code).nodes ≠ [] →
        (parseMermaidToReactFlow code).error = none
        ∧ (parseMermaidToReactFlow code).nodes.map
            (fun p => (p.id, p.type, p.label)) =
            (buildState code).nodes.map (fun n => (n.id, n.type.tag, n.label))
        ∧ (parseMermaidToReactFlow code).edges = (buildState code).edges) := by
  unfold parseMermaidToReactFlow
  rw [if_neg h]
  dsimp only
  split
  · next he =>
    refine ⟨⟨fun _ => he, fun _ => rfl⟩, fun hne => absurd he hne⟩
  · next hne =>
    refine ⟨⟨fun hc => Option.noConfusion hc, fun he => absurd he hne⟩, fun _ => ?_⟩
    exact ⟨rfl, applyLayout_idTypeLabel _ _, rfl⟩

/-- Witness for C4: at the claim's own example `"flowchart TD\n%% just a
comment"` the node table is empty and the parser fails with the no-nodes
error. -/
theorem C4_no_nodes_iff_witness :
    ("flowchart TD\n%% just a comment" : String) ≠ ""
    ∧ (buildState "flowchart TD\n%% just a comment").nodes = []
    ∧ (parseMermaidToReactFlow "flowchart TD\n%% just a comment").error =
        some "No valid nodes found in Mermaid code" := by
  refine ⟨by decide, by decide, ?_⟩
  exact ((C4_no_nodes_iff "flowchart TD\n%% just a comment" (by decide)).1).2
    (by decide)

/-- Claim C7: for every input text, processing any further lines never
changes a node already in the table (so the type and label of the first
declaration of an id win, later declarations being no-ops), and no two
nodes of the final table share an id. -/
theorem C7_first_declaration_wins (t : String) (k : Nat) (n : ParsedNode)
    (h : n ∈ (procLines ((splitNL t.data).take k) ⟨[], []⟩).nodes) :
    n ∈ (buildState t).nodes ∧ distinctIds (buildState t).nodes := by
  have hsplit : buildState t =
      procLines ((splitNL t.data).drop k) (procLines ((splitNL t.data).take k) ⟨[], []⟩) := by
    unfold buildState
    rw [← procLines_append, List.take_append_drop]
  constructor
  · rw [hsplit]
    exact mem_procLines _ _ h
  · exact distinct_procLines _ _ List.Pairwise.nil

/-- Witness for C7: in `"flowchart TD\nA[First]\nA{Second}"` the id `A` is
declared twice; after the first two lines the table holds the Rectangle
node `A`/"First", and it survives unchanged in the final distinct table
(the `{Second}` redeclaration is a no-op). -/
theorem C7_first_declaration_wins_witness :
    (⟨"A", "First", MermaidNodeType.rectangle⟩ : ParsedNode) ∈
      (procLines ((splitNL ("flowchart TD\nA[First]\nA\x7bSecond\x7d" : String).data).take 2)
        ⟨[], []⟩).nodes
    ∧ ((⟨"A", "First", MermaidNodeType.rectangle⟩ : ParsedNode) ∈
        (buildState "flowchart TD\nA[First]\nA\x7bSecond\x7d").nodes
      ∧ distinctIds (buildState "flowchart TD\nA[First]\nA\x7bSecond\x7d").nodes) :=
  ⟨by decide,
   C7_first_declaration_wins "flowchart TD\nA[First]\nA\x7bSecond\x7d" 2
     ⟨"A", "First", MermaidNodeType.rectangle⟩ (by decide)⟩

/-- Claim C8: the Layout Engine assigns every node, in order, the box width
`min(max(150, 8·label_length + 40), 300)` and the box height 80 for Diamond
nodes and 50 otherwise (the `getNodeDimensions` formula of
`applyLayout`). -/
theorem C8_node_dimensions (nodes : List ParsedNode) (edges : List ParsedEdge) :
    (applyLayout nodes edges).map (fun p => (p.id, p.width, p.height)) =
      nodes.map (fun n =>
        (n.id, min (max 150 (8 * n.label.length + 40)) 300,
          if n.type = MermaidNodeType.diamond then 80 else 50)) := by
  rw [applyLayout_dims]
  refine List.map_congr_left (fun n _ => ?_)
  unfold getNodeDimensions
  rw [Nat.mul_comm 8 n.label.length]


/-! ## Claim C5: serializer label escaping -/

/-- The bracket pair that `nodeTypeToMermaidSyntax` wraps around the escaped
label, by type tag. -/
def syntaxDelims (type : String) : List Char × List Char :=
  if type = "diamond" then ([lbr], [rbr])
  else if type = "rounded" then (['('], [')'])
  else if type = "hexagon" then ([lbr, lbr], [rbr, rbr])
  else if type = "parallelogram" then (['[', '/'], ['/', ']'])
  else if type = "cylinder" then (['[', '('], [')', ']'])
  else if type = "circle" then (['(', '('], [')', ')'])
  else (['['], [']'])

theorem nodeSyntax_eq_delims (type : String) (l : List Char) :
    nodeTypeToMermaidSyntax type l =
      (syntaxDelims type).1 ++ escNodeLabel l ++ (syntaxDelims type).2 := by
  unfold nodeTypeToMermaidSyntax syntaxDelims
  split_ifs <;> simp

theorem mem_escNodeLabel {c : Char} {l : List Char} (h : c ∈ escNodeLabel l) :
    c ∈ l ∨ c = '\'' ∨ c = '(' ∨ c = ')' := by
  simp only [escNodeLabel, List.map_map, List.mem_map, Function.comp] at h
  obtain ⟨a, ha, rfl⟩ := h
  split_ifs <;> simp_all

theorem escNodeLabel_no_special (l : List Char) :
    ∀ c ∈ escNodeLabel l, c ≠ '"' ∧ c ≠ '[' ∧ c ≠ ']' := by
  intro c h
  simp only [escNodeLabel, List.map_map, List.mem_map, Function.comp] at h
  obtain ⟨a, _, rfl⟩ := h
  split_ifs <;> simp_all

theorem mem_escEdgeLabel {c : Char} {l : List Char} (h : c ∈ escEdgeLabel l) :
    c ∈ l ∨ c = '\'' := by
  simp only [escEdgeLabel, List.mem_map] at h
  obtain ⟨a, ha, rfl⟩ := h
  split_ifs <;> simp_all

theorem escEdgeLabel_no_quote (l : List Char) :
    ∀ c ∈ escEdgeLabel l, c ≠ '"' := by
  intro c h
  simp only [escEdgeLabel, List.mem_map] at h
  obtain ⟨a, _, rfl⟩ := h
  split_ifs <;> simp_all

/-- Claim C5 (amended): every node label the serializer emits goes through
`escNodeLabel` (double quotes become single quotes, `[`/`]` become `(`/`)`),
so emitted node labels contain no double quote and no square bracket; every
edge label goes through `escEdgeLabel`, which only replaces double quotes by
single quotes — internal `|` characters are *not* replaced (see the
counterexample). -/
theorem C5_label_escaping (type : String) (l : String) (sp tp : List Char)
    (h : l ≠ "") :
    nodeTypeToMermaidSyntax type l.data =
        (syntaxDelims type).1 ++ escNodeLabel l.data ++ (syntaxDelims type).2
    ∧ (∀ c ∈ escNodeLabel l.data, c ≠ '"' ∧ c ≠ '[' ∧ c ≠ ']')
    ∧ edgeLineOf sp tp (some l) =
        "    ".data ++ sp ++ " -->|".data ++ escEdgeLabel l.data ++ "| ".data ++ tp
    ∧ (∀ c ∈ escEdgeLabel l.data, c ≠ '"') := by
  refine ⟨nodeSyntax_eq_delims type l.data, escNodeLabel_no_special l.data, ?_,
    escEdgeLabel_no_quote l.data⟩
  show (if l = "" then "    ".data ++ sp ++ " --> ".data ++ tp
    else "    ".data ++ sp ++ " -->|".data ++ escEdgeLabel l.data ++ "| ".data ++ tp) = _
  rw [if_neg h]

/-- Witness for C5 at the label `He said "hi" [ok]` and the hexagon type:
the escaping is evaluated concretely. -/
theorem C5_label_escaping_witness :
    ("He said \"hi\" [ok]" : String) ≠ ""
    ∧ (nodeTypeToMermaidSyntax "hexagon" ("He said \"hi\" [ok]" : String).data =
        (syntaxDelims "hexagon").1 ++ escNodeLabel ("He said \"hi\" [ok]" : String).data ++
          (syntaxDelims "hexagon").2
      ∧ (∀ c ∈ escNodeLabel ("He said \"hi\" [ok]" : String).data,
          c ≠ '"' ∧ c ≠ '[' ∧ c ≠ ']')
      ∧ edgeLineOf "A".data "B".data (some "He said \"hi\" [ok]") =
          "    ".data ++ "A".data ++ " -->|".data ++
            escEdgeLabel ("He said \"hi\" [ok]" : String).data ++ "| ".data ++ "B".data
      ∧ (∀ c ∈ escEdgeLabel ("He said \"hi\" [ok]" : String).data, c ≠ '"')) :=
  ⟨by decide, C5_label_escaping "hexagon" "He said \"hi\" [ok]" "A".data "B".data (by decide)⟩




/-! ## Claim C10: the serializer flattens every edge to a solid arrow -/

/-- Every character the serializer can emit outside of node ids and
node/edge labels. -/
def serConstChars : List Char :=
  "flowchart TD\n    A[Empty Diagram] -->| Untitled/()'".data ++
    [lbr, rbr, '\\', '[', ']']

theorem sub_serConst {small : List Char}
    (hsmall : ∀ x ∈ small, x ∈ serConstChars) {c : Char} (h : c ∈ small) :
    c ∈ serConstChars := hsmall c h

theorem mem_dropWhileSub {c : Char} {p : Char → Bool} :
    ∀ {l : List Char}, c ∈ l.dropWhile p → c ∈ l
  | a :: t, h => by
    rw [List.dropWhile] at h
    split at h
    · exact List.mem_cons_of_mem a (mem_dropWhileSub h)
    · exact h

/-- `dwE` returns a prefix of its input. -/
theorem dwE_exists_suffix (p : Char → Bool) :
    ∀ l : List Char, ∃ r, dwE p l ++ r = l := by
  intro l
  induction l with
  | nil => exact ⟨[], rfl⟩
  | cons a t ih =>
    obtain ⟨r, hr⟩ := ih
    rw [dwE]
    rcases h : dwE p t with _ | ⟨b, r0⟩
    · by_cases hp : p a
      · exact ⟨a :: t, by simp [hp]⟩
      · exact ⟨t, by simp [hp]⟩
    · rw [h] at hr
      exact ⟨r, by simp only [List.cons_append, hr]⟩

theorem mem_dwE {c : Char} {p : Char → Bool} {l : List Char}
    (h : c ∈ dwE p l) : c ∈ l := by
  obtain ⟨r, hr⟩ := dwE_exists_suffix p l
  rw [← hr]
  exact List.mem_append_left _ h

theorem mem_trimL {c : Char} {l : List Char} (h : c ∈ trimL l) : c ∈ l :=
  mem_dropWhileSub (mem_dwE h)

theorem lstarts_subset : ∀ {p s : List Char}, lstarts p s = true → ∀ c ∈ p, c ∈ s
  | [], _, _, _, hc => absurd hc (List.not_mem_nil _)
  | _ :: _, [], h, _, _ => by cases h
  | p0 :: ps, s0 :: ss, h, c, hc => by
    rw [lstarts, Bool.and_eq_true] at h
    obtain ⟨h1, h2⟩ := h
    rcases List.mem_cons.1 hc with rfl | hc2
    · exact (of_decide_eq_true h1) ▸ List.mem_cons_self _ _
    · exact List.mem_cons_of_mem _ (lstarts_subset h2 c hc2)

theorem containsSeq_subset :
    ∀ {p s : List Char}, containsSeq p s = true → ∀ c ∈ p, c ∈ s
  | p, [], h, c, hc => lstarts_subset h c hc
  | p, s0 :: ss, h, c, hc => by
    rw [containsSeq, Bool.or_eq_true] at h
    rcases h with h1 | h2
    · exact lstarts_subset h1 c hc
    · exact List.mem_cons_of_mem _ (containsSeq_subset h2 c hc)

theorem mem_splitNL {c : Char} :
    ∀ (cs : List Char), ∀ l ∈ splitNL cs, c ∈ l → c ∈ cs
  | [], l, hl, hc => by
    simp only [splitNL, List.mem_singleton] at hl
    subst hl
    cases hc
  | c0 :: t, l, hl, hc => by
    rw [splitNL] at hl
    rcases hsp : splitNL t with _ | ⟨h0, r⟩ <;> rw [hsp] at hl <;> dsimp only at hl
    · rw [List.mem_singleton] at hl
      subst hl
      rw [List.mem_singleton] at hc
      subst hc
      exact List.mem_cons_self _ _
    · by_cases hnl : c0 = '\n'
      · rw [if_pos hnl] at hl
        rcases List.mem_cons.1 hl with rfl | hl2
        · cases hc
        · exact List.mem_cons_of_mem _
            (mem_splitNL t l (by rw [hsp]; exact hl2) hc)
      · rw [if_neg hnl] at hl
        rcases List.mem_cons.1 hl with rfl | hl2
        · rcases List.mem_cons.1 hc with rfl | hc2
          · exact List.mem_cons_self _ _
          · exact List.mem_cons_of_mem _
              (mem_splitNL t h0 (by rw [hsp]; exact List.mem_cons_self _ _) hc2)
        · exact List.mem_cons_of_mem _
            (mem_splitNL t l (by rw [hsp]; exact List.mem_cons_of_mem _ hl2) hc)

theorem mem_joinNL {c : Char} :
    ∀ (ls : List (List Char)), c ∈ joinNL ls → c = '\n' ∨ ∃ l ∈ ls, c ∈ l
  | [], h => by cases h
  | [l], h => Or.inr ⟨l, List.mem_singleton_self l, by rwa [joinNL] at h⟩
  | l :: l2 :: ls, h => by
    rw [joinNL] at h
    rcases List.mem_append.1 h with h1 | h2
    · exact Or.inr ⟨l, List.mem_cons_self _ _, h1⟩
    · rcases List.mem_cons.1 h2 with rfl | h3
      · exact Or.inl rfl
      · rcases mem_joinNL (l2 :: ls) h3 with h4 | ⟨l4, hl4, hc4⟩
        · exact Or.inl h4
        · exact Or.inr ⟨l4, List.mem_cons_of_mem _ hl4, hc4⟩

/-- Characters of an emitted node declaration: the node's id, its (escaped)
label, or serializer constants. -/
theorem mem_nodeDefinitionOf {c : Char} {n : RFNode}
    (hcon : c ∉ serConstChars) (hid : c ∉ n.id.data) (hlab : c ∉ n.label.data) :
    c ∉ nodeDefinitionOf n := by
  intro h
  unfold nodeDefinitionOf at h
  rcases List.mem_append.1 h with h1 | h2
  · exact hid h1
  · rw [nodeSyntax_eq_delims] at h2
    have hdel : (∀ x ∈ (syntaxDelims (if n.type = "" then "rectangle" else n.type)).1,
        x ∈ serConstChars) ∧
        (∀ x ∈ (syntaxDelims (if n.type = "" then "rectangle" else n.type)).2,
        x ∈ serConstChars) := by
      unfold syntaxDelims
      split_ifs <;> exact ⟨by decide, by decide⟩
    rcases List.mem_append.1 h2 with h3 | h4
    · rcases List.mem_append.1 h3 with h5 | h6
      · exact hcon (hdel.1 c h5)
      · rcases mem_escNodeLabel h6 with h7 | h7 | h7 | h7
        · split at h7
          · exact hcon (sub_serConst (by decide) h7)
          · exact hlab h7
        · exact hcon (by rw [h7]; decide)
        · exact hcon (by rw [h7]; decide)
        · exact hcon (by rw [h7]; decide)
    · exact hcon (hdel.2 c h4)

/-- Characters of an emitted edge line: the endpoint parts, the (escaped)
label, or serializer constants. -/
theorem mem_edgeLineOf {c : Char} {sp tp : List Char} {lab : Option String}
    (hcon : c ∉ serConstChars) (hsp : c ∉ sp) (htp : c ∉ tp)
    (hlab : ∀ l, lab = some l → c ∉ l.data) :
    c ∉ edgeLineOf sp tp lab := by
  intro h
  unfold edgeLineOf at h
  have hbare : c ∈ "    ".data ++ sp ++ " --> ".data ++ tp → False := by
    intro hb
    rcases List.mem_append.1 hb with hb1 | hb2
    · rcases List.mem_append.1 hb1 with hb3 | hb4
      · rcases List.mem_append.1 hb3 with hb5 | hb6
        · exact hcon (sub_serConst (by decide) hb5)
        · exact hsp hb6
      · exact hcon (sub_serConst (by decide) hb4)
    · exact htp hb2
  rcases hl : lab with _ | l
  · rw [hl] at h
    exact hbare h
  · rw [hl] at h
    dsimp only at h
    split at h
    · exact hbare h
    · rcases List.mem_append.1 h with h1 | h2
      · rcases List.mem_append.1 h1 with h3 | h4
        · rcases List.mem_append.1 h3 with h5 | h6
          · rcases List.mem_append.1 h5 with h7 | h8
            · rcases List.mem_append.1 h7 with h9 | h10
              · exact hcon (sub_serConst (by decide) h9)
              · exact hsp h10
            · exact hcon (sub_serConst (by decide) h8)
          · rcases mem_escEdgeLabel h6 with h7 | h7
            · exact hlab l hl h7
            · exact hcon (by rw [h7]; decide)
        · exact hcon (sub_serConst (by decide) h4)
      · exact htp h2

/-- The serializer never emits a character that occurs in none of the node
ids, node labels, edge labels, or serializer constants. -/
theorem serialize_char_absent (c : Char) (nodes : List RFNode) (edges : List RFEdge)
    (hcon : c ∉ serConstChars)
    (hn : ∀ n ∈ nodes, c ∉ n.id.data ∧ c ∉ n.label.data)
    (he : ∀ e ∈ edges, ∀ l, e.label = some l → c ∉ l.data) :
    c ∉ reactFlowToMermaidL nodes edges := by
  intro h
  unfold reactFlowToMermaidL at h
  split at h
  · exact hcon (sub_serConst (by decide) h)
  · dsimp only at h
    have hdefval : ∀ p ∈ nodes.map (fun n => (n.id, nodeDefinitionOf n)),
        (∃ n ∈ nodes, n.id = p.1) ∧ c ∉ p.2 := by
      intro p hp
      obtain ⟨n, hn2, rfl⟩ := List.mem_map.1 hp
      exact ⟨⟨n, hn2, rfl⟩,
        mem_nodeDefinitionOf hcon (hn n hn2).1 (hn n hn2).2⟩
    have hstep : ∀ (acc : List (List Char) × List String) (e : RFEdge),
        e ∈ edges →
        ((∀ line ∈ acc.1, c ∉ line) ∧ (∀ i ∈ acc.2, ∃ n ∈ nodes, n.id = i)) →
        ((∀ line ∈
            (serEdgeStep (nodes.map (fun n => (n.id, nodeDefinitionOf n))) acc e).1,
            c ∉ line) ∧
          (∀ i ∈
            (serEdgeStep (nodes.map (fun n => (n.id, nodeDefinitionOf n))) acc e).2,
            ∃ n ∈ nodes, n.id = i)) := by
      intro acc e hmem hinv
      unfold serEdgeStep
      rcases hfs : (nodes.map (fun n => (n.id, nodeDefinitionOf n))).find?
          (fun p => p.1 = e.source) with _ | ps <;> rw [hfs]
      · exact hinv
      rcases hft : (nodes.map (fun n => (n.id, nodeDefinitionOf n))).find?
          (fun p => p.1 = e.target) with _ | pt <;> rw [hft]
      · exact hinv
      dsimp only
      have hps := hdefval ps (List.mem_of_find?_eq_some hfs)
      have hpt := hdefval pt (List.mem_of_find?_eq_some hft)
      have hpsid : ps.1 = e.source := by
        have h1 := List.find?_some hfs
        simpa using h1
      have hptid : pt.1 = e.target := by
        have h1 := List.find?_some hft
        simpa using h1
      have hsrcid : ∃ n ∈ nodes, n.id = e.source := hpsid ▸ hps.1
      have htgtid : ∃ n ∈ nodes, n.id = e.target := hptid ▸ hpt.1
      have hsrcchars : c ∉ e.source.data := by
        obtain ⟨n, hn2, hid⟩ := hsrcid
        exact hid ▸ (hn n hn2).1
      have htgtchars : c ∉ e.target.data := by
        obtain ⟨n, hn2, hid⟩ := htgtid
        exact hid ▸ (hn n hn2).1
      constructor
      · intro line hline
        rcases List.mem_append.1 hline with h1 | h2
        · exact hinv.1 line h1
        · rw [List.mem_singleton] at h2
          subst h2
          refine mem_edgeLineOf hcon ?_ ?_ (he e hmem)
          · split
            · exact hsrcchars
            · exact hps.2
          · split <;> split
            · exact htgtchars
            · exact hpt.2
            · exact htgtchars
            · exact hpt.2
      · intro i hi
        split at hi
        · split at hi
          · exact hinv.2 i hi
          · rcases List.mem_append.1 hi with h1 | h2
            · exact hinv.2 i h1
            · rw [List.mem_singleton] at h2
              exact h2 ▸ htgtid
        · split at hi
          · rcases List.mem_append.1 hi with h1 | h2
            · exact hinv.2 i h1
            · rw [List.mem_singleton] at h2
              exact h2 ▸ hsrcid
          · rcases List.mem_append.1 hi with h1 | h2
            · rcases List.mem_append.1 h1 with h3 | h4
              · exact hinv.2 i h3
              · rw [List.mem_singleton] at h4
                exact h4 ▸ hsrcid
            · rw [List.mem_singleton] at h2
              exact h2 ▸ htgtid
    have hfold : ∀ (l : List RFEdge), (∀ e ∈ l, e ∈ edges) →
        ∀ (acc : List (List Char) × List String),
        ((∀ line ∈ acc.1, c ∉ line) ∧ (∀ i ∈ acc.2, ∃ n ∈ nodes, n.id = i)) →
        ((∀ line ∈
            (l.foldl (serEdgeStep (nodes.map (fun n => (n.id, nodeDefinitionOf n)))) acc).1,
            c ∉ line) ∧
          (∀ i ∈
            (l.foldl (serEdgeStep (nodes.map (fun n => (n.id, nodeDefinitionOf n)))) acc).2,
            ∃ n ∈ nodes, n.id = i)) := by
      intro l
      induction l with
      | nil => exact fun _ acc h => h
      | cons e l ih =>
        intro hsub acc hacc
        exact ih (fun x hx => hsub x (List.mem_cons_of_mem _ hx)) _
          (hstep acc e (hsub e (List.mem_cons_self _ _)) hacc)
    have hmain := hfold edges (fun x hx => hx) (["flowchart TD".data], [])
      (by
        refine ⟨?_, fun i hi => absurd hi (List.not_mem_nil _)⟩
        intro line hline
        rw [List.mem_singleton] at hline
        subst hline
        intro hcc
        exact hcon (sub_serConst (by decide) hcc))
    have horph : ∀ (l : List RFNode) (dset : List String) (ls : List (List Char)),
        (∀ line ∈ ls, c ∉ line) →
        ∀ line ∈ l.foldl (fun ls n =>
          if n.id ∈ dset then ls
          else
            match (nodes.map (fun n => (n.id, nodeDefinitionOf n))).find?
                (fun p => p.1 = n.id) with
            | some p => ls ++ ["    ".data ++ p.2]
            | none => ls) ls, c ∉ line := by
      intro l
      induction l with
      | nil => exact fun dset ls h => h
      | cons n l ih =>
        intro dset ls hls
        refine ih dset _ ?_
        dsimp only
        split
        · exact hls
        · rcases hf : (nodes.map (fun n => (n.id, nodeDefinitionOf n))).find?
              (fun p => p.1 = n.id) with _ | p <;> rw [hf]
          · exact hls
          · dsimp only
            intro line hline
            rcases List.mem_append.1 hline with h1 | h2
            · exact hls line h1
            · rw [List.mem_singleton] at h2
              subst h2
              intro hcc
              rcases List.mem_append.1 hcc with h3 | h4
              · exact hcon (sub_serConst (by decide) h3)
              · exact (hdefval p (List.mem_of_find?_eq_some hf)).2 h4
    rcases mem_joinNL _ h with hnl | ⟨line, hline, hcl⟩
    · exact hcon (by rw [hnl]; decide)
    · exact horph nodes _ _ hmain.1 line hline hcl


theorem edges_registerNode (st : PState) (i d : List Char) :
    (registerNode st i d).edges = st.edges := by
  unfold registerNode
  split <;> rfl

theorem edges_ensureNode (st : PState) (i : List Char) :
    (ensureNode st i).edges = st.edges := by
  unfold ensureNode
  split <;> rfl

theorem edges_scanNodes :
    ∀ (fuel : Nat) (s : List Char) (st : PState),
      (scanNodes st fuel s).edges = st.edges
  | 0, _, _ => rfl
  | fuel + 1, s, st => by
    unfold scanNodes
    cases hm : matchAt nodeDefRE s with
    | some pr =>
      cases pr with
      | mk caps rest =>
        dsimp only
        split
        · rw [edges_scanNodes fuel rest _, edges_registerNode]
        · rfl
    | none =>
      cases s with
      | nil => rfl
      | cons c t => exact edges_scanNodes fuel t st

/-- An edge recorded by `parseLine` from a line that contains no `.` has
`animated = false` (the dotted-connector test is `includes('-.-')`). -/
theorem anim_parseLine (line : List Char) (st : PState)
    (hdot : '.' ∉ line) (h : ∀ e ∈ st.edges, e.animated = false) :
    ∀ e ∈ (parseLine line st).edges, e.animated = false := by
  intro e hme
  unfold parseLine at hme
  dsimp only at hme
  iterate 9 (split at hme; · exact h e hme)
  cases htry : tryEdge (trimL line) with
  | some v =>
    obtain ⟨src, labOpt, tgt⟩ := v
    rw [htry] at hme
    dsimp only at hme
    rw [edges_ensureNode, edges_ensureNode, edges_scanNodes] at hme
    rcases List.mem_append.1 hme with h1 | h2
    · exact h e h1
    · rw [List.mem_singleton] at h2
      subst h2
      dsimp only
      cases hcs : containsSeq dotDash (trimL line) with
      | false => rfl
      | true =>
        exact absurd (mem_trimL (containsSeq_subset hcs '.' (by decide))) hdot
  | none =>
    rw [htry] at hme
    dsimp only at hme
    cases hsm : fullMatch standaloneRE (trimL line) with
    | some caps =>
      rw [hsm] at hme
      dsimp only at hme
      rw [edges_registerNode, edges_scanNodes] at hme
      exact h e hme
    | none =>
      rw [hsm] at hme
      dsimp only at hme
      rw [edges_scanNodes] at hme
      exact h e hme

theorem anim_procLines :
    ∀ (lines : List (List Char)) (st : PState),
      (∀ line ∈ lines, '.' ∉ line) → (∀ e ∈ st.edges, e.animated = false) →
      ∀ e ∈ (procLines lines st).edges, e.animated = false
  | [], _, _, h => h
  | l :: ls, st, hlines, h =>
    anim_procLines ls _ (fun x hx => hlines x (List.mem_cons_of_mem _ hx))
      (anim_parseLine l st (hlines l (List.mem_cons_self _ _)) h)

/-- Any text without a `.` character parses to edges that are all
non-animated. -/
theorem animated_false_of_no_dot (code : String) (hdot : '.' ∉ code.data) :
    ∀ e ∈ (parseMermaidToReactFlow code).edges, e.animated = false := by
  unfold parseMermaidToReactFlow
  split
  · intro e hme
    cases hme
  · dsimp only
    split
    · intro e hme
      cases hme
    · dsimp only
      unfold buildState
      refine anim_procLines _ _ ?_ (fun e hme => absurd hme (List.not_mem_nil _))
      intro line hline hcl
      exact hdot (mem_splitNL code.data line hline hcl)

/-- Claim C10 (amended): for every graph whose node ids, node labels and
edge labels contain no `.` and no `=` character (in particular no `-.-` and
no `==>`), the serializer's output contains no dotted `-.->` and no thick
`==>` arrow token, and every edge of `parse(serialize(g))` has
`animated = false` — the `animated` flag of `g`'s edges is flattened away.
Without that restriction the claim fails: a label containing `-.-` makes
the re-parsed edge animated (see the counterexample). -/
theorem C10_arrows_flattened (nodes : List RFNode) (edges : List RFEdge)
    (hn : ∀ n ∈ nodes, ('.' ∉ n.id.data ∧ '.' ∉ n.label.data) ∧
      ('=' ∉ n.id.data ∧ '=' ∉ n.label.data))
    (he : ∀ e ∈ edges, ∀ l, e.label = some l → '.' ∉ l.data ∧ '=' ∉ l.data) :
    containsSeq "-.->".data (reactFlowToMermaidL nodes edges) = false
    ∧ containsSeq "==>".data (reactFlowToMermaidL nodes edges) = false
    ∧ ∀ e ∈ (parseMermaidToReactFlow (reactFlowToMermaid nodes edges)).edges,
        e.animated = false := by
  have hdot : '.' ∉ reactFlowToMermaidL nodes edges :=
    serialize_char_absent '.' nodes edges (by decide)
      (fun n hn2 => ⟨(hn n hn2).1.1, (hn n hn2).1.2⟩)
      (fun e he2 l hl => (he e he2 l hl).1)
  have heqc : '=' ∉ reactFlowToMermaidL nodes edges :=
    serialize_char_absent '=' nodes edges (by decide)
      (fun n hn2 => ⟨(hn n hn2).2.1, (hn n hn2).2.2⟩)
      (fun e he2 l hl => (he e he2 l hl).2)
  refine ⟨?_, ?_, ?_⟩
  · cases hcs : containsSeq "-.->".data (reactFlowToMermaidL nodes edges) with
    | false => rfl
    | true => exact absurd (containsSeq_subset hcs '.' (by decide)) hdot
  · cases hcs : containsSeq "==>".data (reactFlowToMermaidL nodes edges) with
    | false => rfl
    | true => exact absurd (containsSeq_subset hcs '=' (by decide)) heqc
  · exact animated_false_of_no_dot (reactFlowToMermaid nodes edges) hdot

/-- Witness for C10: a two-node graph whose only edge is labelled `go` and
has `animated = true`; the serialized text has only solid arrows and the
round-tripped edge is not animated. -/
theorem C10_arrows_flattened_witness :
    containsSeq "-.->".data
        (reactFlowToMermaidL [⟨"A", "rectangle", "A"⟩, ⟨"B", "rectangle", "B"⟩]
          [⟨"e1", "A", "B", some "go", true⟩]) = false
    ∧ containsSeq "==>".data
        (reactFlowToMermaidL [⟨"A", "rectangle", "A"⟩, ⟨"B", "rectangle", "B"⟩]
          [⟨"e1", "A", "B", some "go", true⟩]) = false
    ∧ ∀ e ∈ (parseMermaidToReactFlow
        (reactFlowToMermaid [⟨"A", "rectangle", "A"⟩, ⟨"B", "rectangle", "B"⟩]
          [⟨"e1", "A", "B", some "go", true⟩])).edges,
        e.animated = false :=
  C10_arrows_flattened
    [⟨"A", "rectangle", "A"⟩, ⟨"B", "rectangle", "B"⟩]
    [⟨"e1", "A", "B", some "go", true⟩]
    (by decide) (by decide)


/-! ## Claim C3: sanitizer idempotence on bracket-free input

The counterexample above shows the sanitizer is not idempotent in general.
The amended claim restricts to texts with no `]` character; on those, the
four bracket-driven repairs (1, 3, 4 and 5) never fire — their patterns all
require a literal `]` — so the sanitizer reduces to backtick removal,
whitespace collapsing and trimming, and those three are jointly
idempotent. -/

theorem mfirst_eq_some {α : Type} {x : Option α} {y : Unit → Option α} {r : α}
    (h : mfirst x y = some r) : x = some r ∨ (x = none ∧ y () = some r) := by
  unfold mfirst at h
  cases x with
  | some v => exact Or.inl h
  | none => exact Or.inr ⟨rfl, h⟩

/-- Does every successful match of `re` necessarily consume the character
`ch`?  (A conservative syntactic under-approximation.) -/
def requiresChar (ch : Char) : RE → Bool
  | .lit c => c = ch
  | .seq a b => requiresChar ch a || requiresChar ch b
  | .alt a b => requiresChar ch a && requiresChar ch b
  | .grp _ a => requiresChar ch a
  | _ => false

theorem sG_csuffix {α : Type} (p : Char → Bool) :
    ∀ (s : List Char) (caps : Caps) (k : List Char → Caps → Option α) (r : α),
      sG p s caps k = some r → ∃ s1 c1, s1 <:+ s ∧ k s1 c1 = some r
  | [], caps, k, r, h => ⟨[], caps, List.suffix_refl _, h⟩
  | c :: t, caps, k, r, h => by
    rw [sG] at h
    split at h
    · rcases mfirst_eq_some h with h1 | ⟨_, h2⟩
      · obtain ⟨s1, c1, hsuf, hk⟩ := sG_csuffix p t caps k r h1
        exact ⟨s1, c1, hsuf.trans (List.suffix_cons c t), hk⟩
      · exact ⟨c :: t, caps, List.suffix_refl _, h2⟩
    · exact ⟨c :: t, caps, List.suffix_refl _, h⟩

theorem sL_csuffix {α : Type} (p : Char → Bool) :
    ∀ (s : List Char) (caps : Caps) (k : List Char → Caps → Option α) (r : α),
      sL p s caps k = some r → ∃ s1 c1, s1 <:+ s ∧ k s1 c1 = some r
  | [], caps, k, r, h => ⟨[], caps, List.suffix_refl _, h⟩
  | c :: t, caps, k, r, h => by
    rw [sL] at h
    rcases mfirst_eq_some h with h1 | ⟨_, h2⟩
    · exact ⟨c :: t, caps, List.suffix_refl _, h1⟩
    · split at h2
      · obtain ⟨s1, c1, hsuf, hk⟩ := sL_csuffix p t caps k r h2
        exact ⟨s1, c1, hsuf.trans (List.suffix_cons c t), hk⟩
      · exact absurd h2 (by simp)

/-- A successful CPS match hands the continuation a suffix of the input. -/
theorem mmatch_csuffix {α : Type} :
    ∀ (re : RE) (s : List Char) (caps : Caps) (k : List Char → Caps → Option α)
      (r : α), mmatch re s caps k = some r → ∃ s1 c1, s1 <:+ s ∧ k s1 c1 = some r
  | .eps, s, caps, k, r, h => ⟨s, caps, List.suffix_refl _, h⟩
  | .lit c, s, caps, k, r, h => by
    cases s with
    | nil => exact absurd h (by simp [mmatch])
    | cons c1 t =>
      rw [mmatch] at h
      split at h
      · exact ⟨t, caps, List.suffix_cons c1 t, h⟩
      · exact absurd h (by simp)
  | .cls p, s, caps, k, r, h => by
    cases s with
    | nil => exact absurd h (by simp [mmatch])
    | cons c1 t =>
      rw [mmatch] at h
      split at h
      · exact ⟨t, caps, List.suffix_cons c1 t, h⟩
      · exact absurd h (by simp)
  | .seq a b, s, caps, k, r, h => by
    rw [mmatch] at h
    obtain ⟨s1, c1, hsuf1, hk1⟩ := mmatch_csuffix a s caps _ r h
    obtain ⟨s2, c2, hsuf2, hk2⟩ := mmatch_csuffix b s1 c1 k r hk1
    exact ⟨s2, c2, hsuf2.trans hsuf1, hk2⟩
  | .alt a b, s, caps, k, r, h => by
    rw [mmatch] at h
    rcases mfirst_eq_some h with h1 | ⟨_, h2⟩
    · exact mmatch_csuffix a s caps k r h1
    · exact mmatch_csuffix b s caps k r h2
  | .opt a, s, caps, k, r, h => by
    rw [mmatch] at h
    rcases mfirst_eq_some h with h1 | ⟨_, h2⟩
    · exact mmatch_csuffix a s caps k r h1
    · exact ⟨s, caps, List.suffix_refl _, h2⟩
  | .starG p, s, caps, k, r, h => sG_csuffix p s caps k r (by rwa [mmatch] at h)
  | .starL p, s, caps, k, r, h => sL_csuffix p s caps k r (by rwa [mmatch] at h)
  | .endS, s, caps, k, r, h => by
    rw [mmatch] at h
    split at h
    · exact ⟨s, caps, List.suffix_refl _, h⟩
    · exact absurd h (by simp)
  | .endM, s, caps, k, r, h => by
    cases s with
    | nil => exact ⟨[], caps, List.suffix_refl _, by rwa [mmatch] at h⟩
    | cons c t =>
      rw [mmatch] at h
      split at h
      · exact ⟨c :: t, caps, List.suffix_refl _, h⟩
      · exact absurd h (by simp)
  | .grp n a, s, caps, k, r, h => by
    rw [mmatch] at h
    obtain ⟨s1, c1, hsuf, hk⟩ := mmatch_csuffix a s caps _ r h
    exact ⟨s1, setCap n (s.take (s.length - s1.length)) c1, hsuf, hk⟩

/-- If a pattern syntactically requires `ch`, a successful match means `ch`
occurs in the input. -/
theorem mmatch_requires {α : Type} (ch : Char) :
    ∀ (re : RE) (s : List Char) (caps : Caps) (k : List Char → Caps → Option α)
      (r : α), requiresChar ch re = true → mmatch re s caps k = some r → ch ∈ s
  | .lit c, s, caps, k, r, hreq, h => by
    cases s with
    | nil => exact absurd h (by simp [mmatch])
    | cons c1 t =>
      rw [mmatch] at h
      split at h
      · next hc =>
        rw [requiresChar] at hreq
        rw [of_decide_eq_true hreq] at hc
        exact hc ▸ List.mem_cons_self _ _
      · exact absurd h (by simp)
  | .seq a b, s, caps, k, r, hreq, h => by
    rw [requiresChar, Bool.or_eq_true] at hreq
    rw [mmatch] at h
    rcases hreq with hra | hrb
    · exact mmatch_requires ch a s caps _ r hra h
    · obtain ⟨s1, c1, hsuf, hk⟩ := mmatch_csuffix a s caps _ r h
      exact hsuf.subset (mmatch_requires ch b s1 c1 k r hrb hk)
  | .alt a b, s, caps, k, r, hreq, h => by
    rw [requiresChar, Bool.and_eq_true] at hreq
    rw [mmatch] at h
    rcases mfirst_eq_some h with h1 | ⟨_, h2⟩
    · exact mmatch_requires ch a s caps k r hreq.1 h1
    · exact mmatch_requires ch b s caps k r hreq.2 h2
  | .grp n a, s, caps, k, r, hreq, h => by
    rw [mmatch] at h
    exact mmatch_requires ch a s caps _ r (by rwa [requiresChar] at hreq) h
  | .eps, _, _, _, _, hreq, _ => by cases hreq
  | .cls _, _, _, _, _, hreq, _ => by cases hreq
  | .opt _, _, _, _, _, hreq, _ => by cases hreq
  | .starG _, _, _, _, _, hreq, _ => by cases hreq
  | .starL _, _, _, _, _, hreq, _ => by cases hreq
  | .endS, _, _, _, _, hreq, _ => by cases hreq
  | .endM, _, _, _, _, hreq, _ => by cases hreq

theorem matchAt_requires {ch : Char} {re : RE} {s : List Char}
    {pr : Caps × List Char} (hreq : requiresChar ch re = true)
    (h : matchAt re s = some pr) : ch ∈ s :=
  mmatch_requires ch re s [] _ pr hreq h

theorem matchAt_none_of_not_mem {ch : Char} {re : RE} {s : List Char}
    (hreq : requiresChar ch re = true) (hch : ch ∉ s) :
    matchAt re s = none := by
  cases h : matchAt re s with
  | none => rfl
  | some pr => exact absurd (matchAt_requires hreq h) hch

theorem testRE_false_of_not_mem {ch : Char} {re : RE}
    (hreq : requiresChar ch re = true) :
    ∀ {s : List Char}, ch ∉ s → testRE re s = false
  | [], hch => by
    rw [testRE, matchAt_none_of_not_mem hreq hch]
    rfl
  | c :: t, hch => by
    rw [testRE, matchAt_none_of_not_mem hreq hch, Bool.or_eq_false_iff]
    exact ⟨rfl, testRE_false_of_not_mem hreq
      (fun hc => hch (List.mem_cons_of_mem c hc))⟩

theorem scanRepl_id {ch : Char} {re : RE} {build : Caps → List Char}
    (hreq : requiresChar ch re = true) :
    ∀ (fuel : Nat) {s : List Char}, ch ∉ s → scanRepl re build fuel s = s
  | 0, s, _ => rfl
  | fuel + 1, s, hch => by
    rw [scanRepl.eq_def]
    dsimp only
    rw [matchAt_none_of_not_mem hreq hch]
    cases s with
    | nil => rfl
    | cons c t =>
      dsimp only
      rw [scanRepl_id hreq fuel (fun hc => hch (List.mem_cons_of_mem c hc))]

theorem replaceAll_id {ch : Char} {re : RE} {build : Caps → List Char}
    (hreq : requiresChar ch re = true) {s : List Char} (hch : ch ∉ s) :
    replaceAll re build s = s :=
  scanRepl_id hreq _ hch

theorem paren1Loop_id {s : List Char} (hch : ']' ∉ s) :
    ∀ fuel, paren1Loop fuel s = s
  | 0 => rfl
  | fuel + 1 => by
    rw [paren1Loop, @testRE_false_of_not_mem ']' _ (by rfl) _ hch]
    rfl

/-- `rmTicks` only deletes characters. -/
theorem mem_rmTicks {c : Char} :
    ∀ {s : List Char}, c ∈ rmTicks s → c ∈ s
  | [a], h => by rwa [rmTicks] at h
  | [a, b], h => by rwa [rmTicks] at h
  | a :: b :: d :: r, h => by
    rw [rmTicks] at h
    split at h
    · exact List.mem_cons_of_mem _ (List.mem_cons_of_mem _
        (List.mem_cons_of_mem _ (mem_rmTicks h)))
    · rcases List.mem_cons.1 h with rfl | h2
      · exact List.mem_cons_self _ _
      · exact List.mem_cons_of_mem _ (mem_rmTicks h2)

/-- `collapseWsAux` only keeps input characters or inserts spaces. -/
theorem mem_collapseWsAux {c : Char} :
    ∀ (b : Bool) (s : List Char), c ∈ collapseWsAux b s → c ∈ s ∨ c = ' '
  | false, [], h => by cases h
  | false, [a], h => by
    rw [collapseWsAux, List.mem_singleton] at h
    exact Or.inl (h ▸ List.mem_cons_self _ _)
  | false, a :: d :: t, h => by
    rw [collapseWsAux] at h
    split at h
    · split at h
      · rcases mem_collapseWsAux true (d :: t) h with h1 | h1
        · exact Or.inl (List.mem_cons_of_mem _ h1)
        · exact Or.inr h1
      · rcases List.mem_cons.1 h with rfl | h2
        · exact Or.inl (List.mem_cons_self _ _)
        · rcases mem_collapseWsAux false (d :: t) h2 with h1 | h1
          · exact Or.inl (List.mem_cons_of_mem _ h1)
          · exact Or.inr h1
    · rcases List.mem_cons.1 h with rfl | h2
      · exact Or.inl (List.mem_cons_self _ _)
      · rcases mem_collapseWsAux false (d :: t) h2 with h1 | h1
        · exact Or.inl (List.mem_cons_of_mem _ h1)
        · exact Or.inr h1
  | true, [], h => by
    rw [collapseWsAux, List.mem_singleton] at h
    exact Or.inr h
  | true, a :: t, h => by
    rw [collapseWsAux] at h
    split at h
    · rcases mem_collapseWsAux true t h with h1 | h1
      · exact Or.inl (List.mem_cons_of_mem _ h1)
      · exact Or.inr h1
    · rcases List.mem_cons.1 h with rfl | h2
      · exact Or.inr rfl
      · rcases List.mem_cons.1 h2 with rfl | h3
        · exact Or.inl (List.mem_cons_self _ _)
        · rcases mem_collapseWsAux false t h3 with h1 | h1
          · exact Or.inl (List.mem_cons_of_mem _ h1)
          · exact Or.inr h1

/-- On bracket-free input the bracket-driven repairs 1, 3, 4, 5 are
no-ops and the sanitizer reduces to backtick removal, whitespace collapsing
and trimming. -/
theorem sanitizeL_no_rbracket {l : List Char} (h : ']' ∉ l) :
    sanitizeL l = trimL (collapseWs (rmTicks l)) := by
  have h2 : ']' ∉ rmTicks l := fun hc => h (mem_rmTicks hc)
  unfold sanitizeL
  dsimp only
  rw [paren1Loop_id h, @replaceAll_id ']' _ _ (by rfl) _ h2,
    @replaceAll_id ']' _ _ (by rfl) _ h2, @replaceAll_id ']' _ _ (by rfl) _ h2]


/-- Three leading backticks? -/
def isBT3 : List Char → Bool
  | a :: b :: d :: _ => a = btick && b = btick && d = btick
  | _ => false

/-- Does a triple backtick occur anywhere? -/
def hasTriple : List Char → Bool
  | [] => false
  | a :: t => isBT3 (a :: t) || hasTriple t

/-- Two leading spaces/tabs? -/
def isAdj2 : List Char → Bool
  | a :: b :: _ => spTab a && spTab b
  | _ => false

/-- Do two adjacent spaces/tabs occur anywhere? -/
def hasAdj : List Char → Bool
  | [] => false
  | a :: t => isAdj2 (a :: t) || hasAdj t

theorem isBT3_head {a : Char} {X : List Char} (h : a ≠ btick) :
    isBT3 (a :: X) = false := by
  cases X with
  | nil => rfl
  | cons x y =>
    cases y with
    | nil => rfl
    | cons z w => simp [isBT3, h]

theorem isBT3_snd {a b : Char} {X : List Char} (h : b ≠ btick) :
    isBT3 (a :: b :: X) = false := by
  cases X with
  | nil => rfl
  | cons z w => simp [isBT3, h]

theorem isBT3_third {a b d : Char} {X : List Char} (h : d ≠ btick) :
    isBT3 (a :: b :: d :: X) = false := by simp [isBT3, h]

theorem isBT3_append {l r : List Char} (h : isBT3 l = true) :
    isBT3 (l ++ r) = true := by
  cases l with
  | nil => cases h
  | cons a t =>
    cases t with
    | nil => cases h
    | cons b t2 =>
      cases t2 with
      | nil => cases h
      | cons d t3 => exact h

theorem hasTriple_cons (a : Char) {t : List Char} (h : hasTriple t = true) :
    hasTriple (a :: t) = true := by
  rw [hasTriple, Bool.or_eq_true]
  exact Or.inr h

theorem hasTriple_append_left :
    ∀ {l r : List Char}, hasTriple l = true → hasTriple (l ++ r) = true
  | a :: t, r, h => by
    rw [hasTriple, Bool.or_eq_true] at h
    rw [List.cons_append, hasTriple, Bool.or_eq_true]
    rcases h with h1 | h2
    · exact Or.inl (List.cons_append a t r ▸ isBT3_append h1)
    · exact Or.inr (hasTriple_append_left h2)

theorem hasTriple_append_right :
    ∀ (l : List Char) {r : List Char}, hasTriple r = true → hasTriple (l ++ r) = true
  | [], _, h => h
  | a :: t, r, h => hasTriple_cons a (hasTriple_append_right t h)

theorem isAdj2_append {l r : List Char} (h : isAdj2 l = true) :
    isAdj2 (l ++ r) = true := by
  cases l with
  | nil => cases h
  | cons a t =>
    cases t with
    | nil => cases h
    | cons b t2 => exact h

theorem hasAdj_cons (a : Char) {t : List Char} (h : hasAdj t = true) :
    hasAdj (a :: t) = true := by
  rw [hasAdj, Bool.or_eq_true]
  exact Or.inr h

theorem hasAdj_append_left :
    ∀ {l r : List Char}, hasAdj l = true → hasAdj (l ++ r) = true
  | a :: t, r, h => by
    rw [hasAdj, Bool.or_eq_true] at h
    rw [List.cons_append, hasAdj, Bool.or_eq_true]
    rcases h with h1 | h2
    · exact Or.inl (List.cons_append a t r ▸ isAdj2_append h1)
    · exact Or.inr (hasAdj_append_left h2)

theorem hasAdj_append_right :
    ∀ (l : List Char) {r : List Char}, hasAdj r = true → hasAdj (l ++ r) = true
  | [], _, h => h
  | a :: t, r, h => hasAdj_cons a (hasAdj_append_right t h)

theorem dropWhile_exists_pre (p : Char → Bool) :
    ∀ l : List Char, ∃ pre, pre ++ l.dropWhile p = l
  | [] => ⟨[], rfl⟩
  | a :: t => by
    rw [List.dropWhile]
    split
    · obtain ⟨pre, hp⟩ := dropWhile_exists_pre p t
      exact ⟨a :: pre, by rw [List.cons_append, hp]⟩
    · exact ⟨[], rfl⟩

theorem hasTriple_trimL {l : List Char} (h : hasTriple (trimL l) = true) :
    hasTriple l = true := by
  obtain ⟨r, hr⟩ := dwE_exists_suffix jsSpace (l.dropWhile jsSpace)
  obtain ⟨pre, hp⟩ := dropWhile_exists_pre jsSpace l
  rw [← hp]
  refine hasTriple_append_right pre ?_
  rw [← hr]
  exact hasTriple_append_left h

theorem hasAdj_trimL {l : List Char} (h : hasAdj (trimL l) = true) :
    hasAdj l = true := by
  obtain ⟨r, hr⟩ := dwE_exists_suffix jsSpace (l.dropWhile jsSpace)
  obtain ⟨pre, hp⟩ := dropWhile_exists_pre jsSpace l
  rw [← hp]
  refine hasAdj_append_right pre ?_
  rw [← hr]
  exact hasAdj_append_left h

theorem rmTicks_cons_eq : ∀ {x : Char} {t : List Char},
    isBT3 (x :: t) = false → rmTicks (x :: t) = x :: rmTicks t
  | x, [], _ => rfl
  | x, [b], _ => rfl
  | x, b :: d :: r, h => by
    rw [rmTicks]
    split
    · next hc =>
      rw [show isBT3 (x :: b :: d :: r) = true from by
        simp only [isBT3]
        exact hc] at h
      cases h
    · rfl

theorem rmTicks_id : ∀ {s : List Char}, hasTriple s = false → rmTicks s = s
  | [], _ => rfl
  | [a], _ => rfl
  | [a, b], _ => rfl
  | a :: b :: d :: r, h => by
    rw [hasTriple, Bool.or_eq_false_iff] at h
    rw [rmTicks_cons_eq h.1, rmTicks_id h.2]

theorem rmTicks_noTriple : ∀ s : List Char, hasTriple (rmTicks s) = false
  | [] => rfl
  | [a] => by
    rw [rmTicks]
    cases ha : decide (a = btick) <;> rfl
  | [a, b] => by
    rw [rmTicks]
    rw [hasTriple, hasTriple, hasTriple]
    rfl
  | a :: b :: d :: r => by
    rw [rmTicks]
    split
    · exact rmTicks_noTriple r
    · next hc =>
      have hbt : isBT3 (a :: b :: d :: r) = false := by
        cases hx : isBT3 (a :: b :: d :: r)
        · rfl
        · refine absurd ?_ hc
          simp only [isBT3] at hx
          exact hx
      rw [hasTriple, Bool.or_eq_false_iff]
      refine ⟨?_, rmTicks_noTriple (b :: d :: r)⟩
      by_cases hab : a = btick
      · subst hab
        have hbd : ¬(b = btick ∧ d = btick) := by
          intro ⟨h3, h4⟩
          subst h3
          subst h4
          simp [isBT3] at hbt
        by_cases hb : b = btick
        · have hd : d ≠ btick := fun h4 => hbd ⟨hb, h4⟩
          rw [rmTicks_cons_eq (isBT3_snd hd), rmTicks_cons_eq (isBT3_head hd)]
          exact isBT3_third hd
        · rw [rmTicks_cons_eq (isBT3_head hb)]
          exact isBT3_snd hb
      · exact isBT3_head hab

theorem spTab_ne_btick {c : Char} (h : spTab c = true) : c ≠ btick := by
  rw [spTab, Bool.or_eq_true] at h
  rcases h with h1 | h1 <;> rw [of_decide_eq_true h1] <;> decide

theorem cAuxT_head : ∀ {s : List Char} {y : Char} {u : List Char},
    collapseWsAux true s = y :: u → y = ' '
  | [], y, u, h => by
    rw [collapseWsAux] at h
    injection h with h1 h2
    exact h1.symm
  | c :: t, y, u, h => by
    rw [collapseWsAux] at h
    split at h
    · exact cAuxT_head h
    · injection h with h1 h2
      exact h1.symm

theorem cAuxF_head : ∀ {s : List Char} {y : Char} {u : List Char},
    collapseWsAux false s = y :: u →
    spTab y = true ∨ ∃ t', s = y :: t' ∧ u = collapseWsAux false t'
  | [], y, u, h => by cases h
  | [c], y, u, h => by
    rw [collapseWsAux] at h
    injection h with h1 h2
    exact Or.inr ⟨[], by rw [h1], h2.symm⟩
  | c :: d :: t, y, u, h => by
    rw [collapseWsAux] at h
    split at h
    · split at h
      · next hc _ =>
        rw [cAuxT_head h]
        exact Or.inl rfl
      · next hc _ =>
        injection h with h1 h2
        subst h1
        exact Or.inl hc
    · injection h with h1 h2
      subst h1
      exact Or.inr ⟨d :: t, rfl, h2.symm⟩

theorem isBT3_cAuxF {c : Char} {t : List Char}
    (h : isBT3 (c :: collapseWsAux false t) = true) : hasTriple (c :: t) = true := by
  rcases hX : collapseWsAux false t with _ | ⟨x1, u1⟩
  · rw [hX] at h
    cases h
  rcases hu1 : u1 with _ | ⟨x2, u2⟩
  · rw [hX, hu1] at h
    cases h
  rw [hX, hu1] at h
  simp only [isBT3, Bool.and_eq_true, decide_eq_true_eq] at h
  obtain ⟨⟨hc, h1⟩, h2⟩ := h
  rw [hu1] at hX
  rcases cAuxF_head hX with hsp | ⟨t', ht', hu⟩
  · exact absurd (spTab_ne_btick hsp) (by rw [h1]; intro hcon; exact hcon rfl)
  · rcases cAuxF_head hu.symm with hsp2 | ⟨t'', ht'', _⟩
    · exact absurd (spTab_ne_btick hsp2) (by rw [h2]; intro hcon; exact hcon rfl)
    · rw [ht', ht'']
      rw [hasTriple, Bool.or_eq_true]
      refine Or.inl ?_
      simp [isBT3, hc, h1, h2]

theorem hasTriple_cAux :
    ∀ (b : Bool) (s : List Char), hasTriple (collapseWsAux b s) = true →
      hasTriple s = true
  | false, [], h => by cases h
  | false, [a], h => by
    rw [collapseWsAux] at h
    rw [show hasTriple [a] = false from rfl] at h
    cases h
  | false, c :: d :: t, h => by
    rw [collapseWsAux] at h
    split at h
    · next hc =>
      split at h
      · exact hasTriple_cons c (hasTriple_cAux true (d :: t) h)
      · rw [hasTriple, Bool.or_eq_true] at h
        rcases h with h1 | h2
        · exact absurd h1 (by rw [isBT3_head (spTab_ne_btick hc)]; simp)
        · exact hasTriple_cons c (hasTriple_cAux false (d :: t) h2)
    · rw [hasTriple, Bool.or_eq_true] at h
      rcases h with h1 | h2
      · exact isBT3_cAuxF h1
      · exact hasTriple_cons c (hasTriple_cAux false (d :: t) h2)
  | true, [], h => by
    rw [collapseWsAux] at h
    rw [show hasTriple [' '] = false from rfl] at h
    cases h
  | true, c :: t, h => by
    rw [collapseWsAux] at h
    split at h
    · exact hasTriple_cons c (hasTriple_cAux true t h)
    · rw [hasTriple, Bool.or_eq_true] at h
      rcases h with h1 | h2
      · exact absurd h1 (by rw [isBT3_head (show ' ' ≠ btick by decide)]; simp)
      · rw [hasTriple, Bool.or_eq_true] at h2
        rcases h2 with h3 | h4
        · exact isBT3_cAuxF h3
        · exact hasTriple_cons c (hasTriple_cAux false t h4)

theorem isAdj2_head {a : Char} {X : List Char} (h : spTab a = false) :
    isAdj2 (a :: X) = false := by
  cases X with
  | nil => rfl
  | cons x y => simp [isAdj2, h]

theorem cAuxF_cons_not {d : Char} (t : List Char) (h : spTab d = false) :
    ∃ u, collapseWsAux false (d :: t) = d :: u := by
  cases t with
  | nil => exact ⟨[], rfl⟩
  | cons e t2 =>
    rw [collapseWsAux]
    rw [if_neg (by rw [h]; simp)]
    exact ⟨_, rfl⟩

theorem cAux_noAdj :
    ∀ (b : Bool) (s : List Char), hasAdj (collapseWsAux b s) = false
  | false, [] => rfl
  | false, [a] => by
    rw [collapseWsAux]
    rfl
  | false, c :: d :: t => by
    rw [collapseWsAux]
    split
    · next hc =>
      split
      · exact cAux_noAdj true (d :: t)
      · next hd =>
        have hd2 : spTab d = false := by
          cases hx : spTab d
          · rfl
          · exact absurd hx hd
        obtain ⟨u, hu⟩ := cAuxF_cons_not t hd2
        rw [hu, hasAdj, Bool.or_eq_false_iff]
        refine ⟨by simp [isAdj2, hd2], ?_⟩
        rw [← hu]
        exact cAux_noAdj false (d :: t)
    · next hc =>
      have hc2 : spTab c = false := by
        cases hx : spTab c
        · rfl
        · exact absurd hx hc
      rw [hasAdj, Bool.or_eq_false_iff]
      exact ⟨isAdj2_head hc2, cAux_noAdj false (d :: t)⟩
  | true, [] => by
    rw [collapseWsAux]
    rfl
  | true, c :: t => by
    rw [collapseWsAux]
    split
    · exact cAux_noAdj true t
    · next hc =>
      have hc2 : spTab c = false := by
        cases hx : spTab c
        · rfl
        · exact absurd hx hc
      rw [hasAdj, Bool.or_eq_false_iff]
      refine ⟨by simp [isAdj2, hc2], ?_⟩
      rw [hasAdj, Bool.or_eq_false_iff]
      exact ⟨isAdj2_head hc2, cAux_noAdj false t⟩

theorem cAuxF_id : ∀ {s : List Char}, hasAdj s = false → collapseWsAux false s = s
  | [], _ => rfl
  | [a], _ => by rw [collapseWsAux]
  | c :: d :: t, h => by
    rw [hasAdj, Bool.or_eq_false_iff] at h
    obtain ⟨h1, h2⟩ := h
    rw [collapseWsAux]
    split
    · next hc =>
      split
      · next hd =>
        rw [show isAdj2 (c :: d :: t) = true from by simp [isAdj2, hc, hd]] at h1
        cases h1
      · rw [cAuxF_id h2]
    · rw [cAuxF_id h2]

theorem dropWhile_head_false {p : Char → Bool} :
    ∀ {l : List Char} {c : Char} {u : List Char},
      l.dropWhile p = c :: u → p c = false
  | a :: t, c, u, h => by
    rw [List.dropWhile] at h
    split at h
    · exact dropWhile_head_false h
    · next ha =>
      injection h with h1 h2
      subst h1
      exact ha

theorem dwE_cons_nil {p : Char → Bool} {a : Char} {t : List Char}
    (h : dwE p t = []) : dwE p (a :: t) = if p a then [] else [a] := by
  rw [dwE, h]

theorem dwE_cons_cons {p : Char → Bool} {a b : Char} {t r : List Char}
    (h : dwE p t = b :: r) : dwE p (a :: t) = a :: b :: r := by
  rw [dwE, h]

theorem dwE_idem (p : Char → Bool) : ∀ l : List Char, dwE p (dwE p l) = dwE p l := by
  intro l
  induction l with
  | nil => rfl
  | cons a t ih =>
    rcases h : dwE p t with _ | ⟨b, r⟩
    · rw [dwE_cons_nil h]
      by_cases hp : p a
      · rw [if_pos hp]
        rfl
      · rw [if_neg hp]
        rw [dwE_cons_nil (show dwE p ([] : List Char) = [] from rfl), if_neg hp]
    · rw [dwE_cons_cons h]
      rw [h] at ih
      exact dwE_cons_cons ih

theorem trimL_idem (l : List Char) : trimL (trimL l) = trimL l := by
  unfold trimL
  have h1 : (dwE jsSpace (l.dropWhile jsSpace)).dropWhile jsSpace =
      dwE jsSpace (l.dropWhile jsSpace) := by
    rcases hx : dwE jsSpace (l.dropWhile jsSpace) with _ | ⟨c, u⟩
    · rfl
    · obtain ⟨r, hr⟩ := dwE_exists_suffix jsSpace (l.dropWhile jsSpace)
      rw [hx] at hr
      have hc : jsSpace c = false := by
        rcases hdw : l.dropWhile jsSpace with _ | ⟨c0, u0⟩
        · rw [hdw] at hr
          cases hr
        · rw [hdw] at hr
          have : c = c0 := by
            have := hr
            rw [List.cons_append] at this
            injection this with h1 h2
          rw [this]
          exact dropWhile_head_false hdw
      rw [List.dropWhile, hc]
  rw [h1, dwE_idem]

/-- Claim C3 (amended): the Sanitizer is idempotent on every input text
containing no `]` character.  On such texts the bracket-driven repairs
never fire, and backtick removal, whitespace collapsing and trimming are
jointly idempotent: the first pass leaves no triple backtick, no run of two
or more spaces/tabs, and no surrounding whitespace. -/
theorem C3_idempotent_no_rbracket (t : String) (h : ']' ∉ t.data) :
    sanitizeMermaidCode (sanitizeMermaidCode t) = sanitizeMermaidCode t := by
  by_cases ht : t = ""
  · subst ht
    rfl
  · have hSdata : sanitizeMermaidCode t = String.mk (sanitizeL t.data) := by
      unfold sanitizeMermaidCode
      rw [if_neg ht]
    have hL : sanitizeL t.data = trimL (collapseWs (rmTicks t.data)) :=
      sanitizeL_no_rbracket h
    have hLr : ']' ∉ trimL (collapseWs (rmTicks t.data)) := by
      intro hc
      rcases mem_collapseWsAux false _ (mem_trimL hc) with h2 | h2
      · exact h (mem_rmTicks h2)
      · exact absurd h2 (by decide)
    have hTr : hasTriple (trimL (collapseWs (rmTicks t.data))) = false := by
      cases hx : hasTriple (trimL (collapseWs (rmTicks t.data)))
      · rfl
      · have h1 := hasTriple_cAux false _ (hasTriple_trimL hx)
        rw [rmTicks_noTriple t.data] at h1
        cases h1
    have hAd : hasAdj (trimL (collapseWs (rmTicks t.data))) = false := by
      cases hx : hasAdj (trimL (collapseWs (rmTicks t.data)))
      · rfl
      · have h1 : hasAdj (collapseWsAux false (rmTicks t.data)) = true :=
          hasAdj_trimL hx
        rw [cAux_noAdj false (rmTicks t.data)] at h1
        cases h1
    have hid : sanitizeL (trimL (collapseWs (rmTicks t.data))) =
        trimL (collapseWs (rmTicks t.data)) := by
      rw [sanitizeL_no_rbracket hLr, rmTicks_id hTr,
        show collapseWs (trimL (collapseWs (rmTicks t.data))) =
          trimL (collapseWs (rmTicks t.data)) from cAuxF_id hAd,
        trimL_idem]
    rw [hSdata, hL]
    unfold sanitizeMermaidCode
    split
    · rfl
    · show String.mk (sanitizeL (trimL (collapseWs (rmTicks t.data)))) = _
      rw [hid]

/-- Witness for C3 at a bracket-free input with doubled spaces: the
sanitizer is evaluated twice. -/
theorem C3_idempotent_no_rbracket_witness :
    (']' ∉ ("flowchart TD\n  a  -->  b (x" : String).data)
    ∧ sanitizeMermaidCode (sanitizeMermaidCode "flowchart TD\n  a  -->  b (x") =
        sanitizeMermaidCode "flowchart TD\n  a  -->  b (x" :=
  ⟨by decide, C3_idempotent_no_rbracket "flowchart TD\n  a  -->  b (x" (by decide)⟩


/-! ## Claim C9: layout non-overlap and rank monotonicity

The coordinates are modelled from spec §4.3 (see `applyLayout` above).  The
rank iteration reaches the longest-path fixed point on acyclic graphs; we
characterize acyclicity by the existence of a numeric potential that
strictly increases along every edge. -/

/-- A directed graph (given by its edge list) is acyclic iff some potential
strictly increases along every edge. -/
def Acyclic (edges : List ParsedEdge) : Prop :=
  ∃ f : String → Nat, ∀ e ∈ edges, f e.source < f e.target

/-- Two boxes with top-left corners and extents intersect. -/
def boxesOverlap (a b : PositionedNode) : Prop :=
  a.x < b.x + b.width ∧ b.x < a.x + a.width ∧
  a.y < b.y + b.height ∧ b.y < a.y + a.height

theorem foldr_max_le {l : List Nat} {B : Nat} (h : ∀ x ∈ l, x ≤ B) :
    l.foldr max 0 ≤ B := by
  induction l with
  | nil => exact Nat.zero_le _
  | cons a t ih =>
    exact Nat.max_le.2 ⟨h a (List.mem_cons_self _ _),
      ih (fun x hx => h x (List.mem_cons_of_mem _ hx))⟩

theorem le_foldr_max_of_mem {l : List Nat} {x : Nat} (h : x ∈ l) :
    x ≤ l.foldr max 0 := by
  induction l with
  | nil => cases h
  | cons a t ih =>
    rcases List.mem_cons.1 h with rfl | h2
    · exact Nat.le_max_left _ _
    · exact Nat.le_trans (ih h2) (Nat.le_max_right _ _)

theorem foldr_max_mono {α : Type} {l : List α} {f g : α → Nat}
    (h : ∀ x ∈ l, f x ≤ g x) :
    (l.map f).foldr max 0 ≤ (l.map g).foldr max 0 := by
  induction l with
  | nil => exact Nat.le_refl _
  | cons a t ih =>
    have h1 := h a (List.mem_cons_self _ _)
    have h2 := ih (fun x hx => h x (List.mem_cons_of_mem _ hx))
    exact Nat.max_le.2 ⟨Nat.le_trans h1 (Nat.le_max_left _ _),
      Nat.le_trans h2 (Nat.le_max_right _ _)⟩

theorem rankStep_mono {edges : List ParsedEdge} {r r' : String → Nat}
    (h : ∀ u, r u ≤ r' u) (v : String) :
    rankStep edges r v ≤ rankStep edges r' v :=
  foldr_max_mono (fun e _ => Nat.succ_le_succ (h e.source))

theorem rankIter_mono (edges : List ParsedEdge) :
    ∀ (k : Nat) (v : String), rankIter edges k v ≤ rankIter edges (k + 1) v
  | 0, _ => Nat.zero_le _
  | k + 1, v => rankStep_mono (fun u => rankIter_mono edges k u) v

theorem le_rankStep {edges : List ParsedEdge} {e : ParsedEdge} (he : e ∈ edges)
    (r : String → Nat) : r e.source + 1 ≤ rankStep edges r e.target := by
  refine le_foldr_max_of_mem ?_
  refine List.mem_map_of_mem _ ?_
  exact List.mem_filter.2 ⟨he, by simp⟩

theorem rankStep_congr {edges : List ParsedEdge} {r r' : String → Nat}
    (h : ∀ e ∈ edges, r e.source = r' e.source) (v : String) :
    rankStep edges r v = rankStep edges r' v := by
  unfold rankStep
  rw [List.map_congr_left (fun e hef =>
    congrArg (· + 1) (h e (List.mem_filter.1 hef).1))]

/-- How many nodes sit strictly below `v` in the potential `f`. -/
def gcount (nodes : List ParsedNode) (f : String → Nat) (v : String) : Nat :=
  (nodes.filter (fun w => f w.id < f v)).length

theorem filter_length_mono {α : Type} {l : List α} {p q : α → Bool}
    (h : ∀ x ∈ l, p x = true → q x = true) :
    (l.filter p).length ≤ (l.filter q).length := by
  induction l with
  | nil => exact Nat.le_refl _
  | cons a t ih =>
    have iht := ih (fun x hx => h x (List.mem_cons_of_mem _ hx))
    rw [List.filter_cons, List.filter_cons]
    cases hpa : p a with
    | true =>
      rw [h a (List.mem_cons_self _ _) hpa]
      simpa using iht
    | false =>
      cases hqa : q a with
      | true => simpa using Nat.le_succ_of_le iht
      | false => simpa using iht

theorem filter_length_lt {α : Type} {l : List α} {p q : α → Bool}
    (hpq : ∀ x ∈ l, p x = true → q x = true) {x0 : α} (hx0 : x0 ∈ l)
    (hnp : p x0 = false) (hq : q x0 = true) :
    (l.filter p).length < (l.filter q).length := by
  induction l with
  | nil => cases hx0
  | cons a t ih =>
    have hpqt : ∀ x ∈ t, p x = true → q x = true :=
      fun x hx => hpq x (List.mem_cons_of_mem _ hx)
    rw [List.filter_cons, List.filter_cons]
    rcases List.mem_cons.1 hx0 with rfl | hx0t
    · rw [hnp, hq]
      simpa using Nat.lt_succ_of_le (filter_length_mono hpqt)
    · cases hpa : p a with
      | true =>
        rw [hpq a (List.mem_cons_self _ _) hpa]
        simpa using Nat.succ_lt_succ (ih hpqt hx0t)
      | false =>
        cases hqa : q a with
        | true => simpa using Nat.lt_succ_of_lt (ih hpqt hx0t)
        | false => simpa using ih hpqt hx0t

theorem filter_length_lt_length {α : Type} {l : List α} {p : α → Bool}
    {x0 : α} (hx0 : x0 ∈ l) (hnp : p x0 = false) :
    (l.filter p).length < l.length := by
  induction l with
  | nil => cases hx0
  | cons a t ih =>
    rw [List.filter_cons]
    rcases List.mem_cons.1 hx0 with rfl | hx0t
    · rw [hnp]
      simpa using Nat.lt_succ_of_le (List.length_filter_le p t)
    · cases hpa : p a with
      | true => simpa using Nat.succ_lt_succ (ih hx0t)
      | false => simpa using Nat.lt_succ_of_lt (ih hx0t)

theorem gcount_lt {nodes : List ParsedNode} {f : String → Nat} {u v : String}
    (hu : ∃ n ∈ nodes, n.id = u) (hf : f u < f v) :
    gcount nodes f u < gcount nodes f v := by
  obtain ⟨n0, hn0, hid⟩ := hu
  refine filter_length_lt (fun w _ hw => ?_) hn0 ?_ ?_
  · exact decide_eq_true (Nat.lt_trans (of_decide_eq_true hw) hf)
  · rw [hid]
    exact decide_eq_false (Nat.lt_irrefl _)
  · rw [hid]
    exact decide_eq_true hf

theorem gcount_lt_length {nodes : List ParsedNode} {f : String → Nat} {v : String}
    (hv : ∃ n ∈ nodes, n.id = v) : gcount nodes f v < nodes.length := by
  obtain ⟨n0, hn0, hid⟩ := hv
  refine filter_length_lt_length hn0 ?_
  rw [hid]
  exact decide_eq_false (Nat.lt_irrefl _)

theorem rankIter_le_gcount {edges : List ParsedEdge} {nodes : List ParsedNode}
    {f : String → Nat} (hpot : ∀ e ∈ edges, f e.source < f e.target)
    (hend : ∀ e ∈ edges, ∃ n ∈ nodes, n.id = e.source) :
    ∀ (k : Nat) (v : String), rankIter edges k v ≤ gcount nodes f v
  | 0, _ => Nat.zero_le _
  | k + 1, v => by
    show rankStep edges (rankIter edges k) v ≤ _
    unfold rankStep
    refine foldr_max_le ?_
    intro x hx
    rw [List.mem_map] at hx
    obtain ⟨e, hef, rfl⟩ := hx
    have he : e ∈ edges := (List.mem_filter.1 hef).1
    have htv : e.target = v := of_decide_eq_true (List.mem_filter.1 hef).2
    have h1 := rankIter_le_gcount hpot hend k e.source
    have h2 : gcount nodes f e.source < gcount nodes f v := by
      refine gcount_lt (hend e he) ?_
      rw [← htv]
      exact hpot e he
    omega

theorem sum_map_le_of_le {α : Type} {l : List α} {g : α → Nat}
    {B : Nat} (h : ∀ x ∈ l, g x ≤ B) : (l.map g).sum ≤ l.length * B := by
  induction l with
  | nil => exact Nat.zero_le _
  | cons a t ih =>
    have h1 := h a (List.mem_cons_self _ _)
    have h2 := ih (fun x hx => h x (List.mem_cons_of_mem _ hx))
    rw [List.map_cons, List.sum_cons, List.length_cons, Nat.succ_mul]
    omega

theorem sum_map_mono {α : Type} {l : List α} {g g' : α → Nat}
    (h : ∀ x ∈ l, g x ≤ g' x) : (l.map g).sum ≤ (l.map g').sum := by
  induction l with
  | nil => exact Nat.le_refl _
  | cons a t ih =>
    have h1 := h a (List.mem_cons_self _ _)
    have h2 := ih (fun x hx => h x (List.mem_cons_of_mem _ hx))
    rw [List.map_cons, List.sum_cons, List.map_cons, List.sum_cons]
    omega

theorem sum_map_lt {α : Type} {l : List α} {g g' : α → Nat}
    (hle : ∀ x ∈ l, g x ≤ g' x) (hex : ∃ x ∈ l, g x < g' x) :
    (l.map g).sum < (l.map g').sum := by
  induction l with
  | nil => obtain ⟨x, hx, _⟩ := hex; cases hx
  | cons a t ih =>
    have h1 := hle a (List.mem_cons_self _ _)
    have h2 := sum_map_mono (l := t)
      (fun x hx => hle x (List.mem_cons_of_mem _ hx))
    rw [List.map_cons, List.sum_cons, List.map_cons, List.sum_cons]
    obtain ⟨x, hx, hlt⟩ := hex
    rcases List.mem_cons.1 hx with rfl | hxt
    · omega
    · have h3 := ih (fun y hy => hle y (List.mem_cons_of_mem _ hy)) ⟨x, hxt, hlt⟩
      omega

/-- The rank iteration is stationary at step `k` on the graph's nodes. -/
def rStable (edges : List ParsedEdge) (nodes : List ParsedNode) (k : Nat) : Prop :=
  ∀ n ∈ nodes, rankIter edges (k + 1) n.id = rankIter edges k n.id

theorem stable_step {edges : List ParsedEdge} {nodes : List ParsedNode} {k : Nat}
    (hend : ∀ e ∈ edges, ∃ n ∈ nodes, n.id = e.source)
    (hst : rStable edges nodes k) (v : String) :
    rankIter edges (k + 2) v = rankIter edges (k + 1) v := by
  show rankStep edges (rankIter edges (k + 1)) v = rankStep edges (rankIter edges k) v
  refine rankStep_congr ?_ v
  intro e he
  obtain ⟨n, hn, hid⟩ := hend e he
  rw [← hid]
  exact hst n hn

theorem stable_forever {edges : List ParsedEdge} {nodes : List ParsedNode} {k : Nat}
    (hend : ∀ e ∈ edges, ∃ n ∈ nodes, n.id = e.source)
    (hst : rStable edges nodes k) :
    ∀ (m : Nat) (v : String), rankIter edges (k + 1 + m) v = rankIter edges (k + 1) v
  | 0, _ => rfl
  | m + 1, v => by
    have hIH := stable_forever hend hst m
    show rankStep edges (rankIter edges (k + 1 + m)) v = _
    rw [rankStep_congr (fun e _ => hIH e.source) v]
    exact stable_step hend hst v

theorem exists_stable {edges : List ParsedEdge} {nodes : List ParsedNode}
    {f : String → Nat} (hpot : ∀ e ∈ edges, f e.source < f e.target)
    (hend : ∀ e ∈ edges, ∃ n ∈ nodes, n.id = e.source) :
    ∃ k, k ≤ nodes.length * (nodes.length - 1) ∧ rStable edges nodes k := by
  by_contra hcon
  push_neg at hcon
  have hbound : ∀ (k : Nat),
      (nodes.map (fun n => rankIter edges k n.id)).sum ≤
        nodes.length * (nodes.length - 1) := by
    intro k
    refine sum_map_le_of_le ?_
    intro n hn
    have h1 := rankIter_le_gcount hpot hend k n.id
    have h2 := gcount_lt_length (f := f) ⟨n, hn, rfl⟩
    omega
  have hgrow : ∀ (k : Nat), k ≤ nodes.length * (nodes.length - 1) + 1 →
      k ≤ (nodes.map (fun n => rankIter edges k n.id)).sum := by
    intro k
    induction k with
    | zero => exact fun _ => Nat.zero_le _
    | succ k ih =>
      intro hk
      have h1 := ih (Nat.le_of_succ_le hk)
      have hns : ¬ rStable edges nodes k := hcon k (by omega)
      rw [rStable] at hns
      push_neg at hns
      obtain ⟨n0, hn0, hne⟩ := hns
      have h2 : (nodes.map (fun n => rankIter edges k n.id)).sum <
          (nodes.map (fun n => rankIter edges (k + 1) n.id)).sum := by
        refine sum_map_lt (fun x _ => rankIter_mono edges k x.id) ⟨n0, hn0, ?_⟩
        exact Nat.lt_of_le_of_ne (rankIter_mono edges k n0.id) (Ne.symm hne)
      omega
  have hfinal := hgrow (nodes.length * (nodes.length - 1) + 1) (Nat.le_refl _)
  have := hbound (nodes.length * (nodes.length - 1) + 1)
  omega


theorem applyLayout_length (nodes : List ParsedNode) (edges : List ParsedEdge) :
    (applyLayout nodes edges).length = nodes.length := by
  unfold applyLayout
  simp [List.enum]

theorem applyLayout_get (nodes : List ParsedNode) (edges : List ParsedEdge)
    (ii : Nat) (h1 : ii < (applyLayout nodes edges).length) (h2 : ii < nodes.length) :
    (applyLayout nodes edges).get ⟨ii, h1⟩ =
      { id := (nodes.get ⟨ii, h2⟩).id
        type := (nodes.get ⟨ii, h2⟩).type.tag
        label := (nodes.get ⟨ii, h2⟩).label
        x := xPos nodes (nRank nodes edges) (nodes.get ⟨ii, h2⟩) ii
        y := yPos (nRank nodes edges) (nodes.get ⟨ii, h2⟩)
        width := (getNodeDimensions (nodes.get ⟨ii, h2⟩)).1
        height := (getNodeDimensions (nodes.get ⟨ii, h2⟩)).2 } := by
  simp only [applyLayout, List.get_eq_getElem, List.enum, List.getElem_map,
    List.getElem_enumFrom, Nat.zero_add]

theorem xPos_sep (nodes : List ParsedNode) (rk : String → Nat) (i j : Nat)
    (hij : i < j) (hi : i < nodes.length) (hj : j < nodes.length)
    (hrk : rk ((nodes.get ⟨i, hi⟩).id) = rk ((nodes.get ⟨j, hj⟩).id)) :
    xPos nodes rk (nodes.get ⟨i, hi⟩) i + (getNodeDimensions (nodes.get ⟨i, hi⟩)).1 + 80
      ≤ xPos nodes rk (nodes.get ⟨j, hj⟩) j := by
  have hsplit : nodes.take j =
      nodes.take i ++ nodes.get ⟨i, hi⟩ :: (nodes.drop (i + 1)).take (j - i - 1) := by
    obtain ⟨d, hd⟩ : ∃ d, j - i = d + 1 := ⟨j - i - 1, by omega⟩
    have h1 : nodes.take j = nodes.take (i + (j - i)) := by
      congr 1
      omega
    rw [h1, hd, List.take_add, List.drop_eq_getElem_cons hi, List.take_succ_cons]
    have h5 : d + 1 - 1 = d := by omega
    rw [h5]
    rfl
  simp only [xPos]
  rw [hsplit, List.filter_append, List.filter_cons]
  rw [if_pos (decide_eq_true hrk)]
  rw [List.map_append, List.sum_append, List.map_cons, List.sum_cons]
  simp only [hrk]
  omega

theorem gnd_height_le (n : ParsedNode) : (getNodeDimensions n).2 ≤ 80 := by
  rw [getNodeDimensions]
  dsimp only
  split <;> omega

/-- C9: for every graph with at least two nodes, the layout output has no two
overlapping bounding boxes (boxes from the source's `getNodeDimensions`,
coordinates from the spec §4.3 layered model), and on graphs whose edge
endpoints are declared nodes and which are acyclic (some potential strictly
increases along every edge), every edge goes from a rank to an equal or
greater rank. -/
theorem C9_layout_no_overlap_rank (nodes : List ParsedNode) (edges : List ParsedEdge)
    (hN : 2 ≤ nodes.length) :
    (∀ (i j : Fin (applyLayout nodes edges).length), (i : Nat) < (j : Nat) →
      ¬ boxesOverlap ((applyLayout nodes edges).get i) ((applyLayout nodes edges).get j)) ∧
    ((∀ e ∈ edges, (∃ n ∈ nodes, n.id = e.source) ∧ (∃ n ∈ nodes, n.id = e.target)) →
      Acyclic edges →
      ∀ e ∈ edges, nRank nodes edges e.source ≤ nRank nodes edges e.target) := by
  constructor
  · intro i j
    obtain ⟨ii, hii⟩ := i
    obtain ⟨jj, hjj⟩ := j
    intro hij hov
    have hij2 : ii < jj := hij
    have hjn : jj < nodes.length := by
      rw [← applyLayout_length nodes edges]
      exact hjj
    have hin : ii < nodes.length := Nat.lt_trans hij2 hjn
    rw [applyLayout_get nodes edges ii hii hin,
        applyLayout_get nodes edges jj hjj hjn] at hov
    rw [boxesOverlap] at hov
    dsimp only at hov
    simp only [yPos] at hov
    obtain ⟨ho1, ho2, ho3, ho4⟩ := hov
    have hhi := gnd_height_le (nodes.get ⟨ii, hin⟩)
    have hhj := gnd_height_le (nodes.get ⟨jj, hjn⟩)
    by_cases hrk : nRank nodes edges ((nodes.get ⟨ii, hin⟩).id) =
        nRank nodes edges ((nodes.get ⟨jj, hjn⟩).id)
    · have hx := xPos_sep nodes (nRank nodes edges) ii jj hij2 hin hjn hrk
      omega
    · omega
  · intro hend hac e he
    obtain ⟨f, hpot⟩ := hac
    have hendS : ∀ e ∈ edges, ∃ n ∈ nodes, n.id = e.source :=
      fun e he => (hend e he).1
    obtain ⟨k, hkB, hst⟩ := exists_stable hpot hendS
    have hmul : nodes.length * (nodes.length - 1) ≤ nodes.length * nodes.length :=
      Nat.mul_le_mul_left _ (Nat.sub_le _ _)
    obtain ⟨m, hm⟩ : ∃ m, nodes.length * nodes.length + 1 = (k + 1) + m :=
      ⟨nodes.length * nodes.length + 1 - (k + 1), by omega⟩
    have hNv : ∀ v, rankIter edges (nodes.length * nodes.length + 1) v =
        rankIter edges (k + 1) v := by
      intro v
      rw [hm]
      exact stable_forever hendS hst m v
    have hs2 := le_rankStep he (rankIter edges (k + 1))
    have hkk : rankIter edges (k + 2) e.target = rankIter edges (k + 1) e.target :=
      stable_step hendS hst e.target
    have hs3 : rankStep edges (rankIter edges (k + 1)) e.target =
        rankIter edges (k + 2) e.target := rfl
    rw [nRank, hNv, hNv]
    omega

def c9Nodes : List ParsedNode :=
  [{ id := "A", label := "A", type := .rectangle },
   { id := "B", label := "B", type := .rectangle }]

def c9Edges : List ParsedEdge :=
  [{ id := "e-A-B-0", source := "A", target := "B", label := none, animated := false }]

/-- Witness for C9 at the concrete two-node graph `A --> B` (acyclic via the
potential sending `"A"` to 0 and everything else to 1). -/
theorem C9_layout_no_overlap_rank_witness :
    2 ≤ c9Nodes.length ∧
    (∀ (i j : Fin (applyLayout c9Nodes c9Edges).length), (i : Nat) < (j : Nat) →
      ¬ boxesOverlap ((applyLayout c9Nodes c9Edges).get i)
        ((applyLayout c9Nodes c9Edges).get j)) ∧
    (∀ e ∈ c9Edges, nRank c9Nodes c9Edges e.source ≤ nRank c9Nodes c9Edges e.target) :=
  ⟨by decide,
   (C9_layout_no_overlap_rank c9Nodes c9Edges (by decide)).1,
   fun e he => (C9_layout_no_overlap_rank c9Nodes c9Edges (by decide)).2
     (by decide)
     ⟨fun s => if s = "A" then 0 else 1, by decide⟩ e he⟩


end PromptViz
